import Mathlib

/-!
# Krenq: a shallow embedding of the file transformation engine

The development follows `src/src/Core.cxx`, `src/src/privates1.cxx` and
`src/include/krenq/Core.hxx`.

Conventions of the embedding.

* A byte is a natural number; every byte the program produces is below 256.
  A `std::string` (which may hold NUL bytes) is a list of bytes.
* The host is little-endian, so `uint32_to_LittleEndian` and
  `uint64_to_LittleEndian` return their argument and the object
  representation of an integer field is its little-endian byte list.
* The file system is a finite map from paths to contents; a path with no file
  behind it reads as the empty byte sequence, which is what a stream that
  failed to open delivers.
* Process-wide variables (`g_actualKey`, `g_kmap`) are passed explicitly as a
  `Globals` record; the members of the class are the record `Krenq`.
* SHA-256 is external: it is a `HashProvider`, any function to 32 bytes.
-/

namespace Krenq

set_option linter.dupNamespace false
set_option linter.unnecessarySeqFocus false
set_option maxRecDepth 1000000

/-- One byte (`char` / `unsigned char`), as a natural number below 256. -/
abbrev Byte := Nat

/-- A byte string: the contents of a `std::string` or of a file. -/
abbrev Bytes := List Nat

/-- A file name. -/
abbrev Path := String

/-- Length of a string field in `Key` (`g_kslen`). -/
def g_kslen : Nat := 16

/-- The length of the actual key (`g_actualKlen`). -/
def g_actualKlen : Nat := 154

/-- Length of the encrypted key, `sizeof(Key)` for the packed struct:
one 32-bit field, four 16-byte arrays and four 64-bit fields. -/
def g_encryptedKlen : Nat := 4 + 4 * g_kslen + 4 * 8

/-- Range of `size_t` on the 64-bit hosts the program targets. -/
def sizeMax : Nat := 2 ^ 64

/-- The sentinel byte that `add_padding` appends. -/
def padByte : Byte := 0x1f

/-! ## Strings -/

/-- What `strlen(s.c_str())` bytes of `s.c_str()` are: the bytes of `s` before
its first NUL. -/
def c_str (s : Bytes) : Bytes := s.takeWhile (fun b => b != 0)

/-- `std::string::substr(pos, n)` for `pos` inside the string. -/
def substr (s : Bytes) (pos n : Nat) : Bytes := (s.drop pos).take n

/-- `std::to_string` on an unsigned integer: its decimal digits in ASCII. -/
def to_string (n : Nat) : Bytes := (Nat.toDigits 10 n).map Char.toNat

/-- `strncpy(dst, src, n)`: the characters of `src` up to its terminator, at
most `n` of them, then NUL bytes up to `n`; the rest of `dst` is kept. -/
def strncpy (dst src : Bytes) (n : Nat) : Bytes :=
  let s := (c_str src).take n
  s ++ List.replicate (n - s.length) 0 ++ dst.drop n

/-- Little-endian object representation of an unsigned integer of `w` bytes. -/
def leBytes (w v : Nat) : Bytes := (List.range w).map (fun i => v / 256 ^ i % 256)

/-- The unsigned integer whose little-endian representation is `bs`. -/
def ofLeBytes (bs : Bytes) : Nat := bs.foldr (fun b acc => b + 256 * acc) 0

/-- `uint32_to_LittleEndian` on a little-endian host. -/
def uint32_to_LittleEndian (value : Nat) : Nat := value

/-- `uint64_to_LittleEndian` on a little-endian host. -/
def uint64_to_LittleEndian (value : Nat) : Nat := value

/-! ## The hash provider -/

/-- The external SHA-256 implementation (`sha_256_init`, `sha_256_write`,
`sha_256_close`): a function from the bytes written to a 32-byte digest. -/
structure HashProvider where
  /-- Digest of the bytes written between init and close. -/
  digest : Bytes → Bytes
  /-- The digest buffer is `std::array<std::uint8_t, 32>`. -/
  digest_length : ∀ x, (digest x).length = 32

/-! ## Maps and the file system -/

/-- A `std::map<std::string, V>`. -/
abbrev PMap (V : Type) := Path → Option V

/-- The empty map. -/
def PMap.empty {V : Type} : PMap V := fun _ => none

/-- `std::map::contains`. -/
def PMap.contains {V : Type} (m : PMap V) (k : Path) : Bool := (m k).isSome

/-- Assignment through `operator[]`: `m[k] = v`. -/
def PMap.insert {V : Type} (m : PMap V) (k : Path) (v : V) : PMap V :=
  fun q => if q = k then some v else m q

/-- Reading through `operator[]`: the stored value, or a default-constructed
value which is stored under `k` as a side effect. -/
def PMap.index {V : Type} (m : PMap V) (k : Path) (dflt : V) : V × PMap V :=
  match m k with
  | some v => (v, m)
  | none => (dflt, m.insert k dflt)

/-- The regular files on disk. -/
abbrev FS := Path → Option Bytes

/-- The whole content of a file; empty when there is no file to open. -/
def FS.read (fs : FS) (p : Path) : Bytes := (fs p).getD []

/-- Create or truncate `p` and write `d` (a stream opened with `std::ios::out`). -/
def FS.write (fs : FS) (p : Path) (d : Bytes) : FS :=
  fun q => if q = p then some d else fs q

/-- Append `d` to `p` (a stream opened with `std::ios::app`). -/
def FS.append (fs : FS) (p : Path) (d : Bytes) : FS := fs.write p (fs.read p ++ d)

/-- The call `fs::rename(src, dst)`: `dst` is replaced by `src`, which disappears. -/
def FS.rename (fs : FS) (src dst : Path) : FS :=
  fun q => if q = dst then fs src else if q = src then none else fs q

/-- The call `fs::resize_file(p, n)`: truncate, or extend with zero bytes. -/
def FS.resize (fs : FS) (p : Path) (n : Nat) : FS :=
  match fs p with
  | none => fs
  | some d => fs.write p (d.take n ++ List.replicate (n - d.length) 0)

/-- A `seekg(off)` followed by `read(buf, n)` into the zero-initialised
`std::array` of `n` bytes: the bytes found at `off`, the rest of the array
staying zero. -/
def read_at (data : Bytes) (off n : Nat) : Bytes :=
  let chunk := (data.drop off).take n
  chunk ++ List.replicate (n - chunk.length) 0

/-! ## The key -/

/-- The packed struct `Key`. -/
structure Key where
  s_kid : Nat
  s_ksport1 : Bytes
  s_rt1 : Nat
  s_ksport2 : Bytes
  s_rt2 : Nat
  s_ksport3 : Bytes
  s_rt3 : Nat
  s_ksport4 : Bytes
  s_rt4 : Nat

/-- A value-initialised `Key`: every member is `{}`. -/
def Key.zero : Key :=
  { s_kid := 0, s_ksport1 := List.replicate g_kslen 0, s_rt1 := 0,
    s_ksport2 := List.replicate g_kslen 0, s_rt2 := 0,
    s_ksport3 := List.replicate g_kslen 0, s_rt3 := 0,
    s_ksport4 := List.replicate g_kslen 0, s_rt4 := 0 }

/-- The object representation of a `Key`, what
`reinterpret_cast<char*>(m_key)` points at: `sizeof(Key)` bytes, no padding
between the fields. -/
def Key.raw (k : Key) : Bytes :=
  leBytes 4 k.s_kid ++ k.s_ksport1 ++ leBytes 8 k.s_rt1 ++ k.s_ksport2 ++ leBytes 8 k.s_rt2 ++
    k.s_ksport3 ++ leBytes 8 k.s_rt3 ++ k.s_ksport4 ++ leBytes 8 k.s_rt4

/-- The `Key` that `read(reinterpret_cast<char*>(providedKey), sizeof(Key))`
leaves behind when the stream delivers `b`. -/
def Key.ofRaw (b : Bytes) : Key :=
  { s_kid := ofLeBytes (substr b 0 4), s_ksport1 := substr b 4 16,
    s_rt1 := ofLeBytes (substr b 20 8), s_ksport2 := substr b 28 16,
    s_rt2 := ofLeBytes (substr b 44 8), s_ksport3 := substr b 52 16,
    s_rt3 := ofLeBytes (substr b 68 8), s_ksport4 := substr b 76 16,
    s_rt4 := ofLeBytes (substr b 92 8) }

/-- A `char[16]` member used as a C string (`str += key->s_ksportN`): the
bytes from the member's first byte, at offset `off` of the object, up to the
next NUL.  The struct is packed, so when the array holds no NUL the bytes of the
following members are read as well.  (Past the end of the object the read
leaves the object; the embedding stops there.) -/
def Key.cstr (k : Key) (off : Nat) : Bytes := c_str (k.raw.drop off)

/-- The natural text of a key: decimal id, segments and decimal integers, in
the order both `generate_key` and `extract_key` append them. -/
def Key.text (k : Key) : Bytes :=
  to_string k.s_kid ++ k.cstr 4 ++ to_string k.s_rt1 ++ k.cstr 28 ++ to_string k.s_rt2 ++
    k.cstr 52 ++ to_string k.s_rt3 ++ k.cstr 76 ++ to_string k.s_rt4

/-- The padding step shared by `generate_key` and `extract_key`:
`size_t diff{g_actualKlen - s.length()}; s += s.substr(0, diff);` with the
subtraction in `size_t`. -/
def self_pad (s : Bytes) : Bytes :=
  let diff := (g_actualKlen + sizeMax - s.length) % sizeMax
  s ++ substr s 0 diff

/-- The internal character database of `get_random_string`. -/
def charDB : Bytes :=
  [40, 68, 125, 72, 101, 123, 110, 119, 60, 112, 74, 65, 95, 124, 76, 107, 99, 98, 49, 100, 63,
   73, 102, 87, 86, 50, 80, 121, 109, 59, 48, 37, 42, 113, 78, 81, 92, 71, 118, 56, 117, 52, 66,
   116, 93, 108, 91, 84, 36, 67, 105, 83, 97, 44, 122, 88, 104, 39, 114, 75, 54, 47, 33, 79, 53,
   62, 61, 41, 51, 89, 120, 106, 90, 55, 43, 64, 38, 115, 103, 46, 82, 45, 70, 85, 94, 58, 77, 35,
   69, 57, 111, 34]

/-- The randomness one `generate_key` call consumes: the five results of
`std::rand()` (an `int` in `[0, RAND_MAX]`), and for each of the four
segments the indexes `get_randomN_from_limit(0, charDB.length() - 1)` returns. -/
structure Entropy where
  rand : Fin 5 → Fin (2 ^ 31)
  pick : Fin 4 → Nat → Fin 92

/-- The function `get_random_string(len)` with the internal character
database: `len - 1` characters drawn from it. -/
def get_random_string (len : Nat) (draw : Nat → Fin 92) : Bytes :=
  (List.range (len - 1)).map (fun i => charDB.getD (draw i).val 0)

/-! ## The engine -/

/-- What the operations raise (`std::runtime_error`), by message. -/
inductive Error where
  | KeyNotSaved
  | KeyAlreadyExists
  | InvalidKey
  | KeyExtractionFailed
  deriving DecidableEq

/-- The data members of `class Krenq`. -/
structure Krenq where
  m_entries : List Path
  m_keyname : Path
  m_keyIsSaved : Bool
  m_key : Key
  m_encryptedKey : Bytes
  m_emap : PMap Path
  m_kenmap : PMap Bytes

/-- The variables with static storage of `Core.cxx`. -/
structure Globals where
  g_actualKey : Bytes
  g_kmap : PMap Bytes

/-- The state of the globals when the program starts. -/
def Globals.init : Globals := { g_actualKey := [], g_kmap := PMap.empty }

/-- `Krenq::get_entry_size`. -/
def get_entry_size (self : Krenq) : Nat := self.m_entries.length

/-- `Krenq::generate_key`: populate `m_key` from the randomness, append the
key text to `g_actualKey` and pad it, store the raw key in `m_encryptedKey`. -/
def generate_key (self : Krenq) (g : Globals) (e : Entropy) : Krenq × Globals :=
  let k0 := self.m_key
  let k : Key :=
    { s_kid := uint32_to_LittleEndian (e.rand 0).val
      s_ksport1 := strncpy k0.s_ksport1 (get_random_string (g_kslen - 1) (e.pick 0)) (g_kslen - 1)
      s_rt1 := uint64_to_LittleEndian (e.rand 1).val
      s_ksport2 := strncpy k0.s_ksport2 (get_random_string (g_kslen - 1) (e.pick 1)) (g_kslen - 1)
      s_rt2 := uint64_to_LittleEndian (e.rand 2).val
      s_ksport3 := strncpy k0.s_ksport3 (get_random_string (g_kslen - 1) (e.pick 2)) (g_kslen - 1)
      s_rt3 := uint64_to_LittleEndian (e.rand 3).val
      s_ksport4 := strncpy k0.s_ksport4 (get_random_string (g_kslen - 1) (e.pick 3)) (g_kslen - 1)
      s_rt4 := uint64_to_LittleEndian (e.rand 4).val }
  let actualKey :=
    g.g_actualKey ++ to_string k.s_kid ++ k.cstr 4 ++ to_string k.s_rt1 ++ k.cstr 28 ++
      to_string k.s_rt2 ++ k.cstr 52 ++ to_string k.s_rt3 ++ k.cstr 76 ++ to_string k.s_rt4
  ({ self with m_key := k, m_encryptedKey := k.raw }, { g with g_actualKey := self_pad actualKey })

/-- The constructor `Krenq::Krenq(entries)`. -/
def construct (entries : List Path) (g : Globals) (e : Entropy) : Krenq × Globals :=
  generate_key
    { m_entries := entries, m_keyname := "", m_keyIsSaved := false, m_key := Key.zero,
      m_encryptedKey := [], m_emap := PMap.empty, m_kenmap := PMap.empty } g e

/-- `Krenq::get_string_hash`: the digest of `strlen(strn.c_str())` bytes of
`strn.c_str()`. -/
def get_string_hash (H : HashProvider) (strn : Bytes) : Bytes := H.digest (c_str strn)

/-- `Krenq::get_file_hash`: the file is read into a string and hashed the way
`get_string_hash` hashes. -/
def get_file_hash (H : HashProvider) (fs : FS) (filename : Path) : Bytes :=
  let filedata := fs.read filename
  H.digest (c_str filedata)

/-- The fields of `Krenq::type_estatus` the engine reads: the flag
(`std::get<0>`), the size (`std::get<2>`) and the key hash found in the file
(`std::get<3>`). -/
structure EStatus where
  isEncrypted : Bool
  size : Nat
  footerDigest : Bytes

/-- The part of the status check the specification leaves open: whether the
"recognizable marker" is present in a file. -/
structure StatusOracle where
  marker : Bytes → Bool

/-- Modelled from the spec: `Krenq::krenq_status` is declared in `Core.hxx`
but its definition is not among the sources.  The specification's Status
Oracle classifies a file as encrypted only if its size is consistent with the
container layout (size at least 89 and payload length a multiple of 154) and a
recognizable marker is present; it reports the file size and the embedded
footer digest, the last 32 bytes. -/
def krenq_status (O : StatusOracle) (fs : FS) (filename : Path) : EStatus :=
  let data := fs.read filename
  { isEncrypted := decide (89 ≤ data.length) && decide ((data.length - 89) % 154 = 0) &&
      O.marker data
    size := data.length
    footerDigest := data.drop (data.length - 32) }

/-- The block count both `encrypt` and `add_padding` compute,
`static_cast<int>(std::ceil(filesize / static_cast<double>(g_actualKlen)))`.
The quotient in `double` and the conversion to `int` are exact for every file
size below `154 * 2 ^ 31`; the embedding covers that range. -/
def ceilBlocks (filesize : Nat) : Nat := (filesize + (g_actualKlen - 1)) / g_actualKlen

/-- `Krenq::add_padding`: append `padn` bytes `0x1f`. -/
def add_padding (fs : FS) (filename : Path) (filesize : Nat) : FS :=
  let padn := (ceilBlocks filesize * g_actualKlen + sizeMax - filesize) % sizeMax
  let padding := List.replicate padn padByte
  fs.append filename padding

/-- The loop of `remove_padding` over `arr.rbegin() .. arr.rend()`: count
bytes equal to `0x1f`, stop at the first other byte. -/
def count_padding : Bytes → Nat
  | [] => 0
  | b :: rest => if b != padByte then 0 else count_padding rest + 1

/-- `Krenq::remove_padding`: read the last 154 bytes, count the padding from
the end, shrink the file. -/
def remove_padding (O : StatusOracle) (fs : FS) (filename : Path) : FS :=
  let filesize := (krenq_status O fs filename).size
  let arr := read_at (fs.read filename) ((filesize + sizeMax - g_actualKlen) % sizeMax) g_actualKlen
  let padn := count_padding arr.reverse
  let new_filesize := filesize - padn
  fs.resize filename new_filesize

/-- The inner loop of `encrypt`: `temp += ibuf[i] xor key[i]` for `i` below
`g_actualKlen`.  Reading `key[i]` past `key.length()` is outside the string and
not defined by the language; the embedding reads 0 there, so it gives the bytes
of the code for key texts of at least `g_actualKlen` bytes only, and what is
stated about the bytes produced is stated for such key texts. -/
def encrypt_block (ibuf key : Bytes) : Bytes :=
  (List.range g_actualKlen).map (fun i => ibuf.getD i 0 ^^^ key.getD i 0)

/-- The outer loop of `encrypt`, `n` iterations left, reading at `idx1`. -/
def encrypt_blocks (data key : Bytes) : Nat → Nat → Bytes
  | 0, _ => []
  | n + 1, idx1 =>
    encrypt_block (read_at data idx1 g_actualKlen) key ++
      encrypt_blocks data key n (idx1 + g_actualKlen)

/-- `Krenq::encrypt`.  `pfx` is the string `make_prefix` (declared in
`Core.hxx`, not among the sources) hands back.  Returns the flag and the file
system afterwards. -/
def encrypt (H : HashProvider) (O : StatusOracle) (pfx : Bytes) (self : Krenq) (g : Globals)
    (fs : FS) (filename : Path) : Bool × FS :=
  let estatus := krenq_status O fs filename
  if estatus.isEncrypted then (false, fs) else
  let filesize := estatus.size
  if filesize = 0 then (false, fs) else
  let filehash := get_file_hash H fs filename
  let kenhash := get_string_hash H self.m_encryptedKey
  let fs1 := add_padding fs filename filesize
  let immediateMultiple := ceilBlocks filesize * g_actualKlen
  let body := encrypt_blocks (fs1.read filename) g.g_actualKey (immediateMultiple / g_actualKlen) 0
  let fs2 := fs1.write (filename ++ ".krenqenctemp") (filehash ++ pfx ++ body ++ kenhash)
  (true, fs2.rename (filename ++ ".krenqenctemp") filename)

/-- `Krenq::extract_key`. -/
def extract_key (self : Krenq) (g : Globals) (fs : FS) (keyname : Path) :
    Except Error (Krenq × Globals) :=
  if g.g_kmap.contains keyname then .ok (self, g) else
  let data := fs.read keyname
  if data.length ≠ g_encryptedKlen then .error Error.InvalidKey else
  let providedKey := Key.ofRaw data
  let extractedKey :=
    to_string providedKey.s_kid ++ providedKey.cstr 4 ++ to_string providedKey.s_rt1 ++
      providedKey.cstr 28 ++ to_string providedKey.s_rt2 ++ providedKey.cstr 52 ++
      to_string providedKey.s_rt3 ++ providedKey.cstr 76 ++ to_string providedKey.s_rt4
  let g1 := { g with g_kmap := g.g_kmap.insert keyname (self_pad extractedKey) }
  let ekstr := read_at data 0 32
  .ok ({ self with m_kenmap := self.m_kenmap.insert keyname ekstr }, g1)

/-- The inner loop of `decrypt`: `portion += fbuf[j] xor g_kmap[keyname][j]`
for `j` below `g_actualKlen`.  As in `encrypt_block`, a read past the end of the
registry text is not defined by the language and is 0 here: the embedding gives
the bytes of the code for registry texts of at least `g_actualKlen` bytes only. -/
def decrypt_block (fbuf key : Bytes) : Bytes :=
  (List.range g_actualKlen).map (fun j => fbuf.getD j 0 ^^^ key.getD j 0)

/-- The outer loop of `decrypt`, `n` iterations left, the stream at `ifpos`. -/
def decrypt_blocks (data key : Bytes) : Nat → Nat → Bytes
  | 0, _ => []
  | n + 1, ifpos =>
    decrypt_block (read_at data ifpos g_actualKlen) key ++
      decrypt_blocks data key n (ifpos + g_actualKlen)

/-- `Krenq::decrypt`.  Returns the flag, the engine, the globals and the file
system afterwards, or the error raised. -/
def decrypt (H : HashProvider) (O : StatusOracle) (self : Krenq) (g : Globals) (fs : FS)
    (filename keyname : Path) : Except Error (Bool × Krenq × Globals × FS) :=
  match extract_key self g fs keyname with
  | .error err => .error err
  | .ok (self1, g1) =>
    if !g1.g_kmap.contains keyname then .error Error.KeyExtractionFailed else
    let estatus := krenq_status O fs filename
    if !estatus.isEncrypted then .ok (false, self1, g1, fs) else
    let kenstr := self1.m_kenmap.index keyname []
    let self2 := { self1 with m_kenmap := kenstr.2 }
    let ekstrHash := get_string_hash H kenstr.1
    let fileKeyHash := estatus.footerDigest
    if ekstrHash ≠ fileKeyHash then .ok (false, self2, g1, fs) else
    let filesize := estatus.size
    let nIter := (filesize + sizeMax - (32 * 2 + 25)) % sizeMax / g_actualKlen
    let key := (g1.g_kmap.index keyname []).1
    let out := decrypt_blocks (fs.read filename) key nIter (32 + 25)
    let fs1 := fs.write (filename ++ ".krenqdectemp") out
    let fs2 := fs1.rename (filename ++ ".krenqdectemp") filename
    let fs3 := remove_padding O fs2 filename
    .ok (true, { self2 with m_emap := self2.m_emap.insert filename keyname }, g1, fs3)

/-! ## Directories and batch operations -/

/-- The directories on disk: for a directory, the paths
`fs::recursive_directory_iterator` visits when the loop over it starts. -/
abbrev Dirs := Path → Option (List Path)

/-- `fs::is_regular_file`. -/
def is_regular_file (fs : FS) (p : Path) : Bool := (fs p).isSome

/-- `fs::is_directory`. -/
def is_directory (ds : Dirs) (p : Path) : Bool := (ds p).isSome

/-- `fs::exists`: nothing exists under the empty path. -/
def fs_exists (fs : FS) (ds : Dirs) (p : Path) : Bool :=
  p != "" && (is_regular_file fs p || is_directory ds p)

/-- A stream opened for output on `p` and written to: a stream on the empty
path fails to open and what is inserted into it is dropped. -/
def FS.create (fs : FS) (p : Path) (d : Bytes) : FS := if p = "" then fs else fs.write p d

/-- The statements of `save_key` that compute `mainKey` from `keyname`.  A
character of a name is taken as one byte, as `std::string::length` counts
bytes: the embedding covers names made of one-byte characters. -/
def main_key (keyname : Path) : Path :=
  if keyname.length ≤ 6 then "" ++ (keyname ++ ".krenq")
  else if keyname.length > 6 then
    let ext : Path := String.mk ((keyname.data.drop (keyname.length - 6)).take 6)
    if ext ≠ ".krenq" then "" ++ ".krenq" else ""
  else keyname

/-- `Krenq::save_key`.  Returns what was raised, if anything, with the engine
and the file system afterwards. -/
def save_key (self : Krenq) (fs : FS) (ds : Dirs) (keyname : Path) :
    Option Error × Krenq × FS :=
  if self.m_keyIsSaved = true then (none, self, fs) else
  let mainKey := main_key keyname
  if fs_exists fs ds mainKey then (some Error.KeyAlreadyExists, self, fs) else
  let self1 := { self with m_keyname := mainKey }
  let fs1 := fs.create self1.m_keyname self1.m_encryptedKey
  (none, { self1 with m_keyIsSaved := true }, fs1)

/-- `Krenq::re_encrypt`.  `pfx` is what `make_prefix` hands back.  Its loops
are the statements of the loops of `encrypt`, with `g_kmap[keyname]` as key. -/
def re_encrypt (H : HashProvider) (O : StatusOracle) (pfx : Bytes) (self : Krenq) (g : Globals)
    (fs : FS) (filename : Path) : Bool × Krenq × Globals × FS :=
  let estatus := krenq_status O fs filename
  if estatus.isEncrypted = true then (false, self, g, fs) else
  let filesize := estatus.size
  if filesize = 0 then (false, self, g, fs) else
  let filehash := get_file_hash H fs filename
  let keyname := self.m_emap.index filename ""
  let kstr := g.g_kmap.index keyname.1 []
  let kenstr := self.m_kenmap.index keyname.1 []
  let kenhash := get_string_hash H kenstr.1
  let fs1 := add_padding fs filename filesize
  let immediateMultiple := ceilBlocks filesize * g_actualKlen
  let key := (kstr.2.index keyname.1 []).1
  let body := encrypt_blocks (fs1.read filename) key (immediateMultiple / g_actualKlen) 0
  let fs2 := fs1.write (filename ++ ".krenqrcrypttemp") (filehash ++ pfx ++ body ++ kenhash)
  (true, { self with m_emap := keyname.2, m_kenmap := kenstr.2 }, { g with g_kmap := kstr.2 },
    fs2.rename (filename ++ ".krenqrcrypttemp") filename)

/-- What `std::unique` and `erase` leave after an element equal to `prev`. -/
def unique_from (prev : Int) : List Int → List Int
  | [] => []
  | y :: rest => if y = prev then unique_from prev rest else y :: unique_from y rest

/-- `vidx.erase(std::unique(vidx.begin(), vidx.end()), vidx.end())`: of each
run of equal elements the first is kept. -/
def unique : List Int → List Int
  | [] => []
  | x :: rest => x :: unique_from x rest

/-- `Krenq::filter_indexes`: sort, drop duplicates, drop what is below 1 or
above the number of entries. -/
def filter_indexes (self : Krenq) (vidx : List Int) : List Int :=
  let lim : Int := self.m_entries.length
  let sorted := vidx.insertionSort (fun a b => a ≤ b)
  let uniq := unique sorted
  uniq.filter (fun x => !(decide (x < 1) || decide (x > lim)))

/-- The inner loop of the batch encryptions over a directory: `encrypt` on
every regular file visited.  The state is the file system and the number of
`encrypt` calls made so far; call `n` gets the metadata block `mk n`. -/
def encrypt_dir (H : HashProvider) (O : StatusOracle) (mk : Nat → Bytes) (self : Krenq)
    (g : Globals) : List Path → FS × Nat → FS × Nat
  | [], st => st
  | dfile :: rest, st =>
    if is_regular_file st.1 dfile then
      encrypt_dir H O mk self g rest ((encrypt H O (mk st.2) self g st.1 dfile).2, st.2 + 1)
    else encrypt_dir H O mk self g rest st

/-- The body of the loops of `encrypt_all` and `encrypt_by_index` on one entry. -/
def encrypt_entry (H : HashProvider) (O : StatusOracle) (mk : Nat → Bytes) (self : Krenq)
    (g : Globals) (ds : Dirs) (entry : Path) (st : FS × Nat) : FS × Nat :=
  if !fs_exists st.1 ds entry then st
  else if is_regular_file st.1 entry then
    ((encrypt H O (mk st.2) self g st.1 entry).2, st.2 + 1)
  else if is_directory ds entry then encrypt_dir H O mk self g ((ds entry).getD []) st
  else st

/-- `Krenq::encrypt_all`.  Returns what was raised, if anything, and the file
system afterwards. -/
def encrypt_all (H : HashProvider) (O : StatusOracle) (mk : Nat → Bytes) (self : Krenq)
    (g : Globals) (fs : FS) (ds : Dirs) : Option Error × FS :=
  if !self.m_keyIsSaved then (some Error.KeyNotSaved, fs) else
  (none, (self.m_entries.foldl (fun st e => encrypt_entry H O mk self g ds e st) (fs, 0)).1)

/-- `Krenq::encrypt_by_index`, on the indexes passed as arguments. -/
def encrypt_by_index (H : HashProvider) (O : StatusOracle) (mk : Nat → Bytes) (self : Krenq)
    (g : Globals) (fs : FS) (ds : Dirs) (indexes : List Int) : Option Error × FS :=
  if !self.m_keyIsSaved then (some Error.KeyNotSaved, fs) else
  let vidx := filter_indexes self indexes
  (none,
    (vidx.foldl
      (fun st i => encrypt_entry H O mk self g ds (self.m_entries.getD (i - 1).toNat "") st)
      (fs, 0)).1)

/-- What a call raised, when it raised. -/
def raised {α : Type} (r : Except Error α) : Option Error :=
  match r with
  | .error err => some err
  | .ok _ => none

/-! ## Re-encryption in batches, and the entry list -/

/-- One `re_encrypt` call inside a batch.  The state is the engine, the
globals, the file system and the number of `re_encrypt` calls made so far;
call `n` gets the metadata block `mk n`. -/
def re_encrypt_step (H : HashProvider) (O : StatusOracle) (mk : Nat → Bytes)
    (st : Krenq × Globals × FS × Nat) (p : Path) : Krenq × Globals × FS × Nat :=
  let r := re_encrypt H O (mk st.2.2.2) st.1 st.2.1 st.2.2.1 p
  (r.2.1, r.2.2.1, r.2.2.2, st.2.2.2 + 1)

/-- The loop of `re_encrypt_all` over a directory: every regular file visited
that `m_emap` contains is re-encrypted. -/
def re_encrypt_all_dir (H : HashProvider) (O : StatusOracle) (mk : Nat → Bytes) :
    List Path → Krenq × Globals × FS × Nat → Krenq × Globals × FS × Nat
  | [], st => st
  | dfile :: rest, st =>
    if is_regular_file st.2.2.1 dfile then
      if !st.1.m_emap.contains dfile then re_encrypt_all_dir H O mk rest st
      else re_encrypt_all_dir H O mk rest (re_encrypt_step H O mk st dfile)
    else re_encrypt_all_dir H O mk rest st

/-- The body of the loop of `re_encrypt_all` on one entry. -/
def re_encrypt_all_entry (H : HashProvider) (O : StatusOracle) (mk : Nat → Bytes) (ds : Dirs)
    (entry : Path) (st : Krenq × Globals × FS × Nat) : Krenq × Globals × FS × Nat :=
  if !fs_exists st.2.2.1 ds entry then st
  else if is_regular_file st.2.2.1 entry then
    if !st.1.m_emap.contains entry then st else re_encrypt_step H O mk st entry
  else if is_directory ds entry then re_encrypt_all_dir H O mk ((ds entry).getD []) st
  else st

/-- `Krenq::re_encrypt_all`.  Returns the engine, the globals and the file
system afterwards. -/
def re_encrypt_all (H : HashProvider) (O : StatusOracle) (mk : Nat → Bytes) (self : Krenq)
    (g : Globals) (fs : FS) (ds : Dirs) : Krenq × Globals × FS :=
  let st := self.m_entries.foldl (fun st e => re_encrypt_all_entry H O mk ds e st) (self, g, fs, 0)
  (st.1, st.2.1, st.2.2.1)

/-- The loop of `re_encrypt_by_index` over a directory: every regular file
visited is re-encrypted. -/
def re_encrypt_index_dir (H : HashProvider) (O : StatusOracle) (mk : Nat → Bytes) :
    List Path → Krenq × Globals × FS × Nat → Krenq × Globals × FS × Nat
  | [], st => st
  | dfile :: rest, st =>
    if is_regular_file st.2.2.1 dfile then
      re_encrypt_index_dir H O mk rest (re_encrypt_step H O mk st dfile)
    else re_encrypt_index_dir H O mk rest st

/-- The body of the loop of `re_encrypt_by_index` on one entry. -/
def re_encrypt_index_entry (H : HashProvider) (O : StatusOracle) (mk : Nat → Bytes) (ds : Dirs)
    (entry : Path) (st : Krenq × Globals × FS × Nat) : Krenq × Globals × FS × Nat :=
  if !fs_exists st.2.2.1 ds entry then st
  else if !st.1.m_emap.contains entry then st
  else if is_regular_file st.2.2.1 entry then re_encrypt_step H O mk st entry
  else if is_directory ds entry then re_encrypt_index_dir H O mk ((ds entry).getD []) st
  else st

/-- `Krenq::re_encrypt_by_index`, on the indexes passed as arguments. -/
def re_encrypt_by_index (H : HashProvider) (O : StatusOracle) (mk : Nat → Bytes) (self : Krenq)
    (g : Globals) (fs : FS) (ds : Dirs) (indexes : List Int) : Krenq × Globals × FS :=
  let vidx := filter_indexes self indexes
  let st := vidx.foldl
    (fun st i => re_encrypt_index_entry H O mk ds (st.1.m_entries.getD (i - 1).toNat "") st)
    (self, g, fs, 0)
  (st.1, st.2.1, st.2.2.1)

/-- `std::find(v.begin(), v.end(), entry)`, as an index: the first position
holding `entry`, or the size of the vector. -/
def find (v : List Path) (entry : Path) : Nat := v.indexOf entry

/-- `std::iter_swap` on the positions `i` and `j` of a vector. -/
def iter_swap (v : List Path) (i j : Nat) : List Path :=
  (v.set i (v.getD j "")).set j (v.getD i "")

/-- `std::vector::pop_back`. -/
def pop_back (v : List Path) : List Path := v.dropLast

/-- The body of the loop of `remove_entries` on one argument. -/
def remove_entry (m_entries : List Path) (entry : Path) : List Path :=
  let iter := find m_entries entry
  if iter ≠ m_entries.length then pop_back (iter_swap m_entries iter (m_entries.length - 1))
  else m_entries

/-- `Krenq::remove_entries`, on the names passed as arguments. -/
def remove_entries (self : Krenq) (entries : List Path) : Krenq :=
  { self with m_entries := entries.foldl remove_entry self.m_entries }

/-! ## Sample data and observations used in the statements -/

/-- A hash provider for the examples: the first 32 bytes written, zero-filled. -/
def sampleHash : HashProvider where
  digest := fun x => (x ++ List.replicate 32 0).take 32
  digest_length := by
    intro x
    simp

/-- A status oracle for the examples: the marker is the letter K opening the
metadata block at offset 32. -/
def sampleOracle : StatusOracle where
  marker := fun data => data.getD 32 0 == 75

/-- A 25-byte metadata block carrying the marker of `sampleOracle`. -/
def samplePfx : Bytes := 75 :: List.replicate 24 46

/-- Randomness giving five ten-digit numbers: the key text has 106 natural bytes. -/
def sampleEntropy : Entropy where
  rand := fun _ => ⟨1234567890, by decide⟩
  pick := fun _ _ => ⟨0, by decide⟩

/-- Randomness giving the numbers 0 to 4: the key text has 61 natural bytes. -/
def smallEntropy : Entropy where
  rand := fun i => ⟨i.val, by omega⟩
  pick := fun _ _ => ⟨0, by decide⟩

/-- A disk holding one two-byte file. -/
def sampleFS : FS := FS.write (fun _ => none) "f" [72, 105]

/-- A disk with the file `f` holding `content` and, under `k.krenq`, the raw
key of the engine built from `sampleEntropy`. -/
def sampleDisk (content : Bytes) : FS :=
  FS.write (FS.write (fun _ => none) "f" content) "k.krenq"
    (construct [] Globals.init sampleEntropy).1.m_encryptedKey

/-- What is in `filename` after `encrypt` and then `decrypt` with `keyname`,
with the flag `decrypt` returned; nothing when `decrypt` raised. -/
def roundtrip (H : HashProvider) (O : StatusOracle) (pfx : Bytes) (self : Krenq) (g : Globals)
    (fs : FS) (filename keyname : Path) : Option (Bool × Bytes) :=
  match decrypt H O self g (encrypt H O pfx self g fs filename).2 filename keyname with
  | .ok (b, _, _, fs1) => some (b, fs1.read filename)
  | .error _ => none

/-- The raw key of `sampleEntropy` with its last byte, the top byte of
`s_rt4`, changed from 0 to 1: a different key with the same id and first
segment. -/
def otherKey : Bytes := (construct [] Globals.init sampleEntropy).1.m_encryptedKey.take 99 ++ [1]

/-- The text `extract_key` stores for `keyname`, when it returns. -/
def extracted_text (self : Krenq) (g : Globals) (fs : FS) (keyname : Path) : Option Bytes :=
  match extract_key self g fs keyname with
  | .ok (_, g1) => g1.g_kmap keyname
  | .error _ => none

/-- A disk with the two-byte file `f` and a three-byte file under `bad.krenq`. -/
def badKeyDisk : FS := FS.write (FS.write (fun _ => none) "f" [72, 105]) "bad.krenq" [1, 2, 3]

/-- The globals after an engine has read the key file `k.krenq` of
`sampleDisk`: the registry then holds that path. -/
def cachedGlobals : Globals :=
  match extract_key (construct [] Globals.init sampleEntropy).1
      (construct [] Globals.init sampleEntropy).2 (sampleDisk [72, 105]) "k.krenq" with
  | .ok (_, g1) => g1
  | .error _ => Globals.init

/-- The disk `sampleDisk` after the file under `k.krenq` has been replaced by
the three bytes 1, 2, 3. -/
def replacedKeyDisk : FS := FS.write (sampleDisk [72, 105]) "k.krenq" [1, 2, 3]

/-- No directories. -/
def noDirs : Dirs := fun _ => none

/-- The engine built from `sampleEntropy` over the entries `f` and `g`. -/
def sampleEngine : Krenq := (construct ["f", "g"] Globals.init sampleEntropy).1

/-- The globals after `sampleEngine` was built. -/
def sampleGlobals : Globals := (construct ["f", "g"] Globals.init sampleEntropy).2

/-- `sampleEngine` after its key was saved. -/
def savedEngine : Krenq := { sampleEngine with m_keyIsSaved := true, m_keyname := "k.krenq" }

/-- A later run: the disk holds the file `f` as the engine of `sampleEntropy`
encrypted it, and its key file; a new engine, with the key of `smallEntropy`,
has decrypted `f` with that key file.  The flag, engine, globals and disk after
that `decrypt`. -/
def foreignRun : Bool × Krenq × Globals × FS :=
  match decrypt sampleHash sampleOracle (construct [] Globals.init smallEntropy).1
      (construct [] Globals.init smallEntropy).2
      (encrypt sampleHash sampleOracle samplePfx (construct [] Globals.init sampleEntropy).1
        (construct [] Globals.init sampleEntropy).2 (sampleDisk [72, 105]) "f").2
      "f" "k.krenq" with
  | .ok r => r
  | .error _ =>
    (false, (construct [] Globals.init smallEntropy).1, (construct [] Globals.init smallEntropy).2,
      sampleDisk [72, 105])

/-- A key file of 99 letters A and a final NUL: no segment is terminated
inside its own 16 bytes. -/
def longTextKey : Bytes := List.replicate 99 65 ++ [0]

/-- A disk with the two-byte file `d/a` and, under `k.krenq`, the raw key of
the engine built from `sampleEntropy`. -/
def dirDisk : FS :=
  FS.write (FS.write (fun _ => none) "d/a" [72, 105]) "k.krenq"
    (construct [] Globals.init sampleEntropy).1.m_encryptedKey

/-- The directory `d`, holding the file `d/a`. -/
def dirTree : Dirs := fun p => if p = "d" then some ["d/a"] else none

/-- The engine built from `sampleEntropy` over the single entry `d`, its key
saved. -/
def dirEngine : Krenq :=
  { (construct ["d"] Globals.init sampleEntropy).1 with
    m_keyIsSaved := true, m_keyname := "k.krenq" }

/-- A run on the directory `d`: `dirEngine` has encrypted its entries and then
decrypted the file `d/a` with its key file.  The flag, engine, globals and disk
after that `decrypt`. -/
def dirRun : Bool × Krenq × Globals × FS :=
  match decrypt sampleHash sampleOracle dirEngine (construct ["d"] Globals.init sampleEntropy).2
      (encrypt_all sampleHash sampleOracle (fun _ => samplePfx) dirEngine
        (construct ["d"] Globals.init sampleEntropy).2 dirDisk dirTree).2
      "d/a" "k.krenq" with
  | .ok r => r
  | .error _ => (false, dirEngine, (construct ["d"] Globals.init sampleEntropy).2, dirDisk)

/-- A second engine, built with `smallEntropy` once the first engine's key
file has been read in the run. -/
def secondEngine : Krenq := (construct [] cachedGlobals smallEntropy).1

/-- The globals after `secondEngine` was built. -/
def secondGlobals : Globals := (construct [] cachedGlobals smallEntropy).2

/-- The disk `sampleDisk` after the first engine has encrypted the file `f`. -/
def encryptedDisk : FS :=
  (encrypt sampleHash sampleOracle samplePfx (construct [] Globals.init sampleEntropy).1
    (construct [] Globals.init sampleEntropy).2 (sampleDisk [72, 105]) "f").2

/-- Randomness of a later engine: five times the number 2000000001, a natural
key text of 106 bytes that differs from that of `sampleEntropy`. -/
def laterEntropy : Entropy where
  rand := fun _ => ⟨2000000001, by decide⟩
  pick := fun _ _ => ⟨0, by decide⟩

/-- The second engine of a run, built from `laterEntropy` after `sampleEngine`. -/
def laterEngine : Krenq := (construct [] sampleGlobals laterEntropy).1

/-- The globals after `laterEngine` was built. -/
def laterGlobals : Globals := (construct [] sampleGlobals laterEntropy).2

/-- A disk with the file `f` holding `content` and, under `k2.krenq`, the raw
key of `laterEngine`. -/
def laterDisk (content : Bytes) : FS :=
  FS.write (FS.write (fun _ => none) "f" content) "k2.krenq" laterEngine.m_encryptedKey

/-- The globals once the first engine of the run has read the key file
`k2.krenq` of `laterEngine`. -/
def readGlobals : Globals :=
  match extract_key sampleEngine laterGlobals (laterDisk [72, 105]) "k2.krenq" with
  | .ok (_, g1) => g1
  | .error _ => laterGlobals

/-- A run on the one-byte file `[0x1F]`: the engine of `sampleEntropy` has
encrypted `f` and decrypted it with its key file.  The flag, engine, globals and
disk after that `decrypt`. -/
def emptiedRun : Bool × Krenq × Globals × FS :=
  match decrypt sampleHash sampleOracle (construct [] Globals.init sampleEntropy).1
      (construct [] Globals.init sampleEntropy).2
      (encrypt sampleHash sampleOracle samplePfx (construct [] Globals.init sampleEntropy).1
        (construct [] Globals.init sampleEntropy).2 (sampleDisk [0x1f]) "f").2
      "f" "k.krenq" with
  | .ok r => r
  | .error _ =>
    (false, (construct [] Globals.init sampleEntropy).1, (construct [] Globals.init sampleEntropy).2,
      sampleDisk [0x1f])

/-! # Lemmas -/

/-! ## Files -/

theorem temp_ne (filename : Path) (sfx : String) (h : sfx.length ≠ 0) :
    filename ++ sfx ≠ filename := by
  intro hc
  have := congrArg String.length hc
  simp [String.length_append] at this
  exact h this

theorem read_write_same (fs : FS) (p : Path) (d : Bytes) : (fs.write p d).read p = d := by
  simp [FS.read, FS.write]

theorem read_write_other (fs : FS) (p q : Path) (d : Bytes) (h : q ≠ p) :
    (fs.write p d).read q = fs.read q := by
  simp [FS.read, FS.write, h]

theorem read_rename_dst (fs : FS) (src dst : Path) : (fs.rename src dst).read dst = fs.read src := by
  simp [FS.read, FS.rename]

theorem read_rename_other (fs : FS) (src dst q : Path) (h1 : q ≠ dst) (h2 : q ≠ src) :
    (fs.rename src dst).read q = fs.read q := by
  simp [FS.read, FS.rename, h1, h2]

/-! ## Padding arithmetic -/

theorem ceilBlocks_ge (S : Nat) : S ≤ ceilBlocks S * g_actualKlen := by
  simp only [ceilBlocks, g_actualKlen]
  omega

theorem ceilBlocks_lt (S : Nat) : ceilBlocks S * g_actualKlen < S + g_actualKlen := by
  simp only [ceilBlocks, g_actualKlen]
  omega

theorem ceilBlocks_of_dvd (S : Nat) (h : S % g_actualKlen = 0) :
    ceilBlocks S * g_actualKlen = S := by
  simp only [ceilBlocks, g_actualKlen] at *
  omega

theorem ceilBlocks_pos (S : Nat) (h : S ≠ 0) : 0 < ceilBlocks S := by
  simp only [ceilBlocks, g_actualKlen]
  omega

theorem padn_eq (S : Nat) :
    (ceilBlocks S * g_actualKlen + sizeMax - S) % sizeMax = ceilBlocks S * g_actualKlen - S := by
  have h1 := ceilBlocks_ge S
  have h2 := ceilBlocks_lt S
  simp only [g_actualKlen, sizeMax] at *
  omega

theorem add_padding_read (fs : FS) (filename : Path) (S : Nat) :
    (add_padding fs filename S).read filename =
      fs.read filename ++ List.replicate (ceilBlocks S * g_actualKlen - S) padByte := by
  simp [add_padding, FS.append, read_write_same, padn_eq]

theorem add_padding_read_other (fs : FS) (filename q : Path) (S : Nat) (h : q ≠ filename) :
    (add_padding fs filename S).read q = fs.read q := by
  simp [add_padding, FS.append, read_write_other, h]

/-! ## The block loops -/

theorem read_at_length (data : Bytes) (off n : Nat) : (read_at data off n).length = n := by
  simp only [read_at, List.length_append, List.length_take, List.length_drop, List.length_replicate]
  omega

theorem read_at_getD (data : Bytes) (off n i : Nat) (h : i < n) :
    (read_at data off n).getD i 0 = data.getD (off + i) 0 := by
  simp only [read_at, List.getD_eq_getElem?_getD]
  by_cases hi : off + i < data.length
  · rw [List.getElem?_append_left (by simp; omega)]
    simp [List.getElem?_take, h, List.getElem?_drop]
  · rw [List.getElem?_append_right (by simp; omega)]
    have : data[off + i]? = none := by simp; omega
    rw [this]
    simp

theorem read_at_full (data : Bytes) (off n : Nat) (h : off + n ≤ data.length) :
    read_at data off n = (data.drop off).take n := by
  simp only [read_at]
  have : n - ((data.drop off).take n).length = 0 := by simp; omega
  rw [this]; simp

theorem encrypt_block_length (ibuf key : Bytes) : (encrypt_block ibuf key).length = g_actualKlen := by
  simp [encrypt_block]

theorem encrypt_block_getD (ibuf key : Bytes) (i : Nat) (h : i < g_actualKlen) :
    (encrypt_block ibuf key).getD i 0 = ibuf.getD i 0 ^^^ key.getD i 0 := by
  simp [encrypt_block, List.getD_eq_getElem?_getD, h]

theorem encrypt_blocks_length (data key : Bytes) (n idx1 : Nat) :
    (encrypt_blocks data key n idx1).length = n * g_actualKlen := by
  induction n generalizing idx1 with
  | zero => simp [encrypt_blocks]
  | succ n ih =>
    simp only [encrypt_blocks, List.length_append, encrypt_block_length, ih]
    ring

theorem getD_append_left0 (a b : Bytes) (i : Nat) (h : i < a.length) :
    (a ++ b).getD i 0 = a.getD i 0 := by
  simp [List.getD_eq_getElem?_getD, List.getElem?_append_left h]

theorem getD_append_right0 (a b : Bytes) (i : Nat) (h : a.length ≤ i) :
    (a ++ b).getD i 0 = b.getD (i - a.length) 0 := by
  simp [List.getD_eq_getElem?_getD, List.getElem?_append_right h]

theorem encrypt_blocks_getD (data key : Bytes) (n idx1 j : Nat) (h : j < n * g_actualKlen) :
    (encrypt_blocks data key n idx1).getD j 0 =
      data.getD (idx1 + j) 0 ^^^ key.getD (j % g_actualKlen) 0 := by
  induction n generalizing idx1 j with
  | zero => simp at h
  | succ n ih =>
    simp only [encrypt_blocks]
    by_cases hj : j < g_actualKlen
    · rw [getD_append_left0 _ _ _ (by rw [encrypt_block_length]; exact hj),
        encrypt_block_getD _ _ _ hj, read_at_getD _ _ _ _ hj, Nat.mod_eq_of_lt hj]
    · rw [getD_append_right0 _ _ _ (by rw [encrypt_block_length]; omega), encrypt_block_length,
        ih (idx1 + g_actualKlen) (j - g_actualKlen) (by
          have : (n + 1) * g_actualKlen = n * g_actualKlen + g_actualKlen := by ring
          omega)]
      have e1 : idx1 + g_actualKlen + (j - g_actualKlen) = idx1 + j := by omega
      have e2 : (j - g_actualKlen) % g_actualKlen = j % g_actualKlen := by
        conv_rhs => rw [show j = (j - g_actualKlen) + g_actualKlen by omega]
        simp
      rw [e1, e2]

theorem decrypt_block_eq : decrypt_block = encrypt_block := rfl

theorem decrypt_blocks_eq (data key : Bytes) (n pos : Nat) :
    decrypt_blocks data key n pos = encrypt_blocks data key n pos := by
  induction n generalizing pos with
  | zero => rfl
  | succ n ih => simp only [decrypt_blocks, encrypt_blocks, ih, decrypt_block_eq]

/-- Two byte strings of the same length that agree at every index are equal. -/
theorem ext_getD (a b : Bytes) (hl : a.length = b.length)
    (h : ∀ i, i < a.length → a.getD i 0 = b.getD i 0) : a = b := by
  apply List.ext_getElem hl
  intro i h1 h2
  have := h i h1
  simpa [List.getD_eq_getElem?_getD, h1, h2] using this

theorem encrypt_block_twice (b k : Bytes) (hb : b.length = g_actualKlen) :
    encrypt_block (encrypt_block b k) k = b := by
  apply ext_getD
  · rw [encrypt_block_length, hb]
  · intro i hi
    rw [encrypt_block_length] at hi
    rw [encrypt_block_getD _ _ _ hi, encrypt_block_getD _ _ _ hi, Nat.xor_cancel_right]

/-! ## Removing the padding -/

theorem count_padding_le (xs : Bytes) : count_padding xs ≤ xs.length := by
  induction xs with
  | nil => simp [count_padding]
  | cons b rest ih =>
    simp only [count_padding]
    split <;> simp <;> omega

theorem count_padding_spec (xs : Bytes) :
    xs = List.replicate (count_padding xs) padByte ++ xs.drop (count_padding xs) ∧
      (xs.drop (count_padding xs)).head? ≠ some padByte := by
  induction xs with
  | nil => simp [count_padding]
  | cons b rest ih =>
    simp only [count_padding]
    by_cases hb : b = padByte
    · subst hb
      simp only [bne_self_eq_false, Bool.false_eq_true, ↓reduceIte, List.replicate_succ,
        List.drop_succ_cons, List.cons_append, List.cons.injEq, true_and]
      exact ih
    · simp [hb]

/-- Counting from the end: the string is what is kept followed by the counted
padding bytes, and what is kept does not end in a padding byte. -/
theorem count_padding_reverse (l : Bytes) :
    l = l.take (l.length - count_padding l.reverse) ++
        List.replicate (count_padding l.reverse) padByte ∧
      (l.take (l.length - count_padding l.reverse)).getLast? ≠ some padByte := by
  obtain ⟨h1, h2⟩ := count_padding_spec l.reverse
  have hle := count_padding_le l.reverse
  simp only [List.length_reverse] at hle
  set k := count_padding l.reverse with hk
  have hd : l.reverse.drop k = (l.take (l.length - k)).reverse := by
    rw [List.drop_reverse]
  rw [hd] at h1 h2
  constructor
  · have := congrArg List.reverse h1
    simp only [List.reverse_reverse, List.reverse_append, List.reverse_replicate] at this
    exact this
  · simpa [List.head?_reverse] using h2

theorem count_padding_replicate (k : Nat) (xs : Bytes) (h : xs.head? ≠ some padByte) :
    count_padding (List.replicate k padByte ++ xs) = k := by
  induction k with
  | zero =>
    cases xs with
    | nil => simp [count_padding]
    | cons b rest =>
      have : b ≠ padByte := by simpa using h
      simp [count_padding, this]
  | succ k ih => simp [List.replicate_succ, count_padding, ih]

theorem krenq_status_size (O : StatusOracle) (fs : FS) (p : Path) :
    (krenq_status O fs p).size = (fs.read p).length := rfl

theorem remove_padding_read (O : StatusOracle) (fs : FS) (filename : Path)
    (h1 : g_actualKlen ≤ (fs.read filename).length) (h2 : (fs.read filename).length < sizeMax) :
    (remove_padding O fs filename).read filename =
      (fs.read filename).take ((fs.read filename).length -
        count_padding ((fs.read filename).drop ((fs.read filename).length - g_actualKlen)).reverse) := by
  have hsome : ∃ d, fs filename = some d := by
    cases hf : fs filename with
    | none => simp [FS.read, hf, g_actualKlen] at h1
    | some d => exact ⟨d, rfl⟩
  obtain ⟨d, hd⟩ := hsome
  have hr : fs.read filename = d := by simp [FS.read, hd]
  rw [hr] at h1 h2 ⊢
  have hoff : (d.length + sizeMax - g_actualKlen) % sizeMax = d.length - g_actualKlen := by
    simp only [g_actualKlen, sizeMax] at *
    omega
  have hfull : read_at d (d.length - g_actualKlen) g_actualKlen = d.drop (d.length - g_actualKlen) := by
    rw [read_at_full _ _ _ (by omega)]
    apply List.take_of_length_le
    simp; omega
  simp only [remove_padding, krenq_status_size, hr, hoff, hfull, FS.resize, hd, read_write_same]
  have : d.length - count_padding (d.drop (d.length - g_actualKlen)).reverse - d.length = 0 := by omega
  rw [this]; simp

theorem remove_padding_read_other (O : StatusOracle) (fs : FS) (filename q : Path) (h : q ≠ filename) :
    (remove_padding O fs filename).read q = fs.read q := by
  simp only [remove_padding, FS.resize]
  split
  · rfl
  · rw [read_write_other _ _ _ _ h]

/-! ## Running `encrypt` -/

/-- The ciphertext `encrypt` produces for a file holding `F`. -/
theorem encrypt_fst (H : HashProvider) (O : StatusOracle) (pfx : Bytes) (self : Krenq)
    (g : Globals) (fs : FS) (filename : Path) (hF : fs.read filename ≠ [])
    (hplain : (krenq_status O fs filename).isEncrypted = false) :
    (encrypt H O pfx self g fs filename).1 = true := by
  have hS : (fs.read filename).length ≠ 0 := by simpa using hF
  simp [encrypt, hplain, krenq_status_size, hS]

theorem encrypt_read (H : HashProvider) (O : StatusOracle) (pfx : Bytes) (self : Krenq)
    (g : Globals) (fs : FS) (filename : Path) (hF : fs.read filename ≠ [])
    (hplain : (krenq_status O fs filename).isEncrypted = false) :
    (encrypt H O pfx self g fs filename).2.read filename =
      get_file_hash H fs filename ++ pfx ++
        encrypt_blocks
          (fs.read filename ++
            List.replicate (ceilBlocks (fs.read filename).length * g_actualKlen -
              (fs.read filename).length) padByte)
          g.g_actualKey (ceilBlocks (fs.read filename).length) 0 ++
        get_string_hash H self.m_encryptedKey := by
  have hS : (fs.read filename).length ≠ 0 := by simpa using hF
  have hdiv : ceilBlocks (fs.read filename).length * g_actualKlen / g_actualKlen =
      ceilBlocks (fs.read filename).length := Nat.mul_div_cancel _ (by decide)
  simp only [encrypt, hplain, krenq_status_size, hS, Bool.false_eq_true, ↓reduceIte,
    read_rename_dst, read_write_same, add_padding_read, hdiv]

theorem encrypt_read_other (H : HashProvider) (O : StatusOracle) (pfx : Bytes) (self : Krenq)
    (g : Globals) (fs : FS) (filename q : Path) (h1 : q ≠ filename)
    (h2 : q ≠ filename ++ ".krenqenctemp") :
    (encrypt H O pfx self g fs filename).2.read q = fs.read q := by
  simp only [encrypt]
  split
  · rfl
  · split
    · rfl
    · simp only [read_rename_other _ _ _ _ h1 h2, read_write_other _ _ _ _ h2,
        add_padding_read_other _ _ _ _ h1]

theorem get_file_hash_length (H : HashProvider) (fs : FS) (p : Path) :
    (get_file_hash H fs p).length = 32 := H.digest_length _

theorem get_string_hash_length (H : HashProvider) (s : Bytes) :
    (get_string_hash H s).length = 32 := H.digest_length _

/-! ## Generated keys -/

theorem leBytes_length (w v : Nat) : (leBytes w v).length = w := by simp [leBytes]

theorem ofLeBytes_leBytes4 (v : Nat) (h : v < 2 ^ 32) : ofLeBytes (leBytes 4 v) = v := by
  simp [leBytes, ofLeBytes, List.range_succ]
  omega

theorem ofLeBytes_leBytes8 (v : Nat) (h : v < 2 ^ 64) : ofLeBytes (leBytes 8 v) = v := by
  simp [leBytes, ofLeBytes, List.range_succ]
  omega

theorem c_str_append_nul (a rest : Bytes) : c_str (a ++ 0 :: rest) = c_str a := by
  induction a with
  | nil => simp [c_str]
  | cons b a ih =>
    simp only [c_str, List.cons_append, List.takeWhile_cons] at ih ⊢
    split
    · rw [ih]
    · rfl

theorem c_str_length_le (a : Bytes) : (c_str a).length ≤ a.length := by
  simp only [c_str]
  exact (List.takeWhile_sublist _).length_le

theorem c_str_of_nonzero (a : Bytes) (h : ∀ b ∈ a, b ≠ 0) : c_str a = a := by
  simp only [c_str]
  rw [List.takeWhile_eq_self_iff]
  intro b hb
  simpa using h b hb

theorem charDB_nonzero : ∀ i : Fin 92, charDB.getD i.val 0 ≠ 0 := by decide

theorem get_random_string_length (len : Nat) (draw : Nat → Fin 92) :
    (get_random_string len draw).length = len - 1 := by simp [get_random_string]

theorem get_random_string_nonzero (len : Nat) (draw : Nat → Fin 92) :
    ∀ b ∈ get_random_string len draw, b ≠ 0 := by
  intro b hb
  simp only [get_random_string, List.mem_map] at hb
  obtain ⟨i, _, rfl⟩ := hb
  exact charDB_nonzero (draw i)

/-- What `generate_key` stores in a segment: the 14 random characters and two
NUL bytes. -/
theorem strncpy_segment (draw : Nat → Fin 92) :
    strncpy (List.replicate g_kslen 0) (get_random_string (g_kslen - 1) draw) (g_kslen - 1) =
      get_random_string (g_kslen - 1) draw ++ [0, 0] := by
  have hl := get_random_string_length (g_kslen - 1) draw
  have hc := c_str_of_nonzero _ (get_random_string_nonzero (g_kslen - 1) draw)
  simp only [g_kslen] at *
  simp only [strncpy, hc]
  rw [List.take_of_length_le (by omega), hl]
  simp [List.replicate]

theorem construct_m_key (entries : List Path) (g : Globals) (e : Entropy) :
    (construct entries g e).1.m_key =
      { s_kid := (e.rand 0).val
        s_ksport1 := get_random_string (g_kslen - 1) (e.pick 0) ++ [0, 0]
        s_rt1 := (e.rand 1).val
        s_ksport2 := get_random_string (g_kslen - 1) (e.pick 1) ++ [0, 0]
        s_rt2 := (e.rand 2).val
        s_ksport3 := get_random_string (g_kslen - 1) (e.pick 2) ++ [0, 0]
        s_rt3 := (e.rand 3).val
        s_ksport4 := get_random_string (g_kslen - 1) (e.pick 3) ++ [0, 0]
        s_rt4 := (e.rand 4).val } := by
  simp only [construct, generate_key, Key.zero, strncpy_segment, uint32_to_LittleEndian,
    uint64_to_LittleEndian]

theorem construct_m_encryptedKey (entries : List Path) (g : Globals) (e : Entropy) :
    (construct entries g e).1.m_encryptedKey = (construct entries g e).1.m_key.raw := rfl

theorem construct_raw_length (entries : List Path) (g : Globals) (e : Entropy) :
    (construct entries g e).1.m_encryptedKey.length = g_encryptedKlen := by
  rw [construct_m_encryptedKey, construct_m_key]
  simp [Key.raw, leBytes_length, get_random_string_length, g_kslen, g_encryptedKlen]

/-- The raw key of a generated key has a NUL byte among its first 19 bytes: as
a C string it ends inside the id or right after the first segment. -/
theorem construct_raw_split (entries : List Path) (g : Globals) (e : Entropy) :
    ∃ rest, (construct entries g e).1.m_encryptedKey =
      (leBytes 4 (e.rand 0).val ++ get_random_string (g_kslen - 1) (e.pick 0)) ++ 0 :: rest ∧
      rest.length = 81 := by
  rw [construct_m_encryptedKey, construct_m_key]
  refine ⟨0 :: (leBytes 8 (e.rand 1).val ++ (get_random_string (g_kslen - 1) (e.pick 1) ++ [0, 0]) ++
      leBytes 8 (e.rand 2).val ++ (get_random_string (g_kslen - 1) (e.pick 2) ++ [0, 0]) ++
      leBytes 8 (e.rand 3).val ++ (get_random_string (g_kslen - 1) (e.pick 3) ++ [0, 0]) ++
      leBytes 8 (e.rand 4).val), ?_, ?_⟩
  · simp only [Key.raw, List.append_assoc, List.cons_append, List.nil_append]
  · simp [leBytes_length, get_random_string_length, g_kslen]

theorem construct_c_str (entries : List Path) (g : Globals) (e : Entropy) :
    c_str (construct entries g e).1.m_encryptedKey =
      c_str (leBytes 4 (e.rand 0).val ++ get_random_string (g_kslen - 1) (e.pick 0)) := by
  obtain ⟨rest, h, _⟩ := construct_raw_split entries g e
  rw [h, c_str_append_nul]

theorem construct_c_str_length (entries : List Path) (g : Globals) (e : Entropy) :
    (c_str (construct entries g e).1.m_encryptedKey).length ≤ 18 := by
  rw [construct_c_str]
  refine le_trans (c_str_length_le _) ?_
  simp [leBytes_length, get_random_string_length, g_kslen]

/-- The 32 bytes `extract_key` caches from a key file that agrees with a
generated key on its first 19 bytes are, as a C string, that key. -/
theorem c_str_read_at_32 (entries : List Path) (g : Globals) (e : Entropy) (kf : Bytes)
    (hlen : kf.length = g_encryptedKlen)
    (h19 : kf.take 19 = (construct entries g e).1.m_encryptedKey.take 19) :
    c_str (read_at kf 0 32) = c_str (construct entries g e).1.m_encryptedKey := by
  obtain ⟨rest, h, hr⟩ := construct_raw_split entries g e
  have hA : (leBytes 4 (e.rand 0).val ++ get_random_string (g_kslen - 1) (e.pick 0)).length = 18 := by
    simp [leBytes_length, get_random_string_length, g_kslen]
  set A := leBytes 4 (e.rand 0).val ++ get_random_string (g_kslen - 1) (e.pick 0) with hAdef
  have hk : kf.take 19 = A ++ [0] := by
    rw [h19, h, List.take_append_eq_append_take, hA, List.take_of_length_le (by omega)]
    rfl
  have hfull : read_at kf 0 32 = kf.take 32 := by
    rw [read_at_full _ _ _ (by simp [hlen, g_encryptedKlen, g_kslen])]
    simp
  have hsplit : kf.take 32 = kf.take 19 ++ (kf.drop 19).take 13 := by
    rw [show (32 : Nat) = 19 + 13 from rfl, List.take_add]
  rw [hfull, hsplit, hk, h, List.append_assoc, List.singleton_append, c_str_append_nul,
    c_str_append_nul]

theorem substr_app (p f s : Bytes) (n m : Nat) (hp : p.length = n) (hf : f.length = m) :
    substr (p ++ (f ++ s)) n m = f := by
  subst hp hf
  simp [substr]

theorem substr_app_last (p f : Bytes) (n m : Nat) (hp : p.length = n) (hf : f.length = m) :
    substr (p ++ f) n m = f := by
  subst hp hf
  simp [substr]

/-- Reading back the object representation of a well-formed key gives the key. -/
theorem Key.ofRaw_raw (k : Key) (h0 : k.s_kid < 2 ^ 32)
    (h1 : k.s_ksport1.length = 16) (r1 : k.s_rt1 < 2 ^ 64)
    (h2 : k.s_ksport2.length = 16) (r2 : k.s_rt2 < 2 ^ 64)
    (h3 : k.s_ksport3.length = 16) (r3 : k.s_rt3 < 2 ^ 64)
    (h4 : k.s_ksport4.length = 16) (r4 : k.s_rt4 < 2 ^ 64) :
    Key.ofRaw k.raw = k := by
  obtain ⟨kid, s1, rt1, s2, rt2, s3, rt3, s4, rt4⟩ := k
  simp only at h0 h1 r1 h2 r2 h3 r3 h4 r4
  have e0 : substr (Key.raw ⟨kid, s1, rt1, s2, rt2, s3, rt3, s4, rt4⟩) 0 4 = leBytes 4 kid := by
    have := substr_app [] (leBytes 4 kid) (s1 ++ leBytes 8 rt1 ++ s2 ++ leBytes 8 rt2 ++ s3 ++
      leBytes 8 rt3 ++ s4 ++ leBytes 8 rt4) 0 4 rfl (leBytes_length _ _)
    simpa [Key.raw, List.append_assoc] using this
  have e1 : substr (Key.raw ⟨kid, s1, rt1, s2, rt2, s3, rt3, s4, rt4⟩) 4 16 = s1 := by
    have := substr_app (leBytes 4 kid) s1 (leBytes 8 rt1 ++ s2 ++ leBytes 8 rt2 ++ s3 ++
      leBytes 8 rt3 ++ s4 ++ leBytes 8 rt4) 4 16 (leBytes_length _ _) h1
    simpa [Key.raw, List.append_assoc] using this
  have e2 : substr (Key.raw ⟨kid, s1, rt1, s2, rt2, s3, rt3, s4, rt4⟩) 20 8 = leBytes 8 rt1 := by
    have := substr_app (leBytes 4 kid ++ s1) (leBytes 8 rt1) (s2 ++ leBytes 8 rt2 ++ s3 ++
      leBytes 8 rt3 ++ s4 ++ leBytes 8 rt4) 20 8 (by simp [leBytes_length, h1]) (leBytes_length _ _)
    simpa [Key.raw, List.append_assoc] using this
  have e3 : substr (Key.raw ⟨kid, s1, rt1, s2, rt2, s3, rt3, s4, rt4⟩) 28 16 = s2 := by
    have := substr_app (leBytes 4 kid ++ s1 ++ leBytes 8 rt1) s2 (leBytes 8 rt2 ++ s3 ++
      leBytes 8 rt3 ++ s4 ++ leBytes 8 rt4) 28 16 (by simp [leBytes_length, h1]) h2
    simpa [Key.raw, List.append_assoc] using this
  have e4 : substr (Key.raw ⟨kid, s1, rt1, s2, rt2, s3, rt3, s4, rt4⟩) 44 8 = leBytes 8 rt2 := by
    have := substr_app (leBytes 4 kid ++ s1 ++ leBytes 8 rt1 ++ s2) (leBytes 8 rt2) (s3 ++
      leBytes 8 rt3 ++ s4 ++ leBytes 8 rt4) 44 8 (by simp [leBytes_length, h1, h2])
      (leBytes_length _ _)
    simpa [Key.raw, List.append_assoc] using this
  have e5 : substr (Key.raw ⟨kid, s1, rt1, s2, rt2, s3, rt3, s4, rt4⟩) 52 16 = s3 := by
    have := substr_app (leBytes 4 kid ++ s1 ++ leBytes 8 rt1 ++ s2 ++ leBytes 8 rt2) s3
      (leBytes 8 rt3 ++ s4 ++ leBytes 8 rt4) 52 16 (by simp [leBytes_length, h1, h2]) h3
    simpa [Key.raw, List.append_assoc] using this
  have e6 : substr (Key.raw ⟨kid, s1, rt1, s2, rt2, s3, rt3, s4, rt4⟩) 68 8 = leBytes 8 rt3 := by
    have := substr_app (leBytes 4 kid ++ s1 ++ leBytes 8 rt1 ++ s2 ++ leBytes 8 rt2 ++ s3)
      (leBytes 8 rt3) (s4 ++ leBytes 8 rt4) 68 8 (by simp [leBytes_length, h1, h2, h3])
      (leBytes_length _ _)
    simpa [Key.raw, List.append_assoc] using this
  have e7 : substr (Key.raw ⟨kid, s1, rt1, s2, rt2, s3, rt3, s4, rt4⟩) 76 16 = s4 := by
    have := substr_app (leBytes 4 kid ++ s1 ++ leBytes 8 rt1 ++ s2 ++ leBytes 8 rt2 ++ s3 ++
      leBytes 8 rt3) s4 (leBytes 8 rt4) 76 16 (by simp [leBytes_length, h1, h2, h3]) h4
    simpa [Key.raw, List.append_assoc] using this
  have e8 : substr (Key.raw ⟨kid, s1, rt1, s2, rt2, s3, rt3, s4, rt4⟩) 92 8 = leBytes 8 rt4 := by
    have := substr_app_last (leBytes 4 kid ++ s1 ++ leBytes 8 rt1 ++ s2 ++ leBytes 8 rt2 ++ s3 ++
      leBytes 8 rt3 ++ s4) (leBytes 8 rt4) 92 8 (by simp [leBytes_length, h1, h2, h3, h4])
      (leBytes_length _ _)
    simpa [Key.raw, List.append_assoc] using this
  simp only [Key.ofRaw, e0, e1, e2, e3, e4, e5, e6, e7, e8, ofLeBytes_leBytes4 _ h0,
    ofLeBytes_leBytes8 _ r1, ofLeBytes_leBytes8 _ r2, ofLeBytes_leBytes8 _ r3,
    ofLeBytes_leBytes8 _ r4]

theorem construct_ofRaw (entries : List Path) (g : Globals) (e : Entropy) :
    Key.ofRaw (construct entries g e).1.m_encryptedKey = (construct entries g e).1.m_key := by
  rw [construct_m_encryptedKey]
  have h31 : ∀ x : Fin (2 ^ 31), x.val < 2 ^ 32 ∧ x.val < 2 ^ 64 := by
    intro x
    have := x.isLt
    constructor <;> omega
  apply Key.ofRaw_raw <;> rw [construct_m_key] <;>
    first
    | exact (h31 _).1
    | exact (h31 _).2
    | simp [get_random_string_length, g_kslen]

/-- For the first engine of a run the key text `generate_key` leaves in
`g_actualKey` is the padded natural text of the generated key. -/
theorem construct_actualKey (entries : List Path) (e : Entropy) :
    (construct entries Globals.init e).2.g_actualKey =
      self_pad (construct entries Globals.init e).1.m_key.text := by
  simp only [construct, generate_key, Globals.init, Key.text, List.nil_append]

/-! ## Running `extract_key` and `decrypt` -/

theorem extract_key_fresh (self : Krenq) (g : Globals) (fs : FS) (keyname : Path)
    (hnone : g.g_kmap keyname = none) (hlen : (fs.read keyname).length = g_encryptedKlen) :
    extract_key self g fs keyname =
      .ok ({ self with m_kenmap := self.m_kenmap.insert keyname (read_at (fs.read keyname) 0 32) },
           { g with g_kmap := g.g_kmap.insert keyname (self_pad (Key.ofRaw (fs.read keyname)).text) }) := by
  simp only [extract_key, PMap.contains, hnone, Option.isSome_none, Bool.false_eq_true, ↓reduceIte,
    hlen, ne_eq, not_true_eq_false, Key.text]

theorem krenq_status_encrypted_size (O : StatusOracle) (fs : FS) (p : Path)
    (h : (krenq_status O fs p).isEncrypted = true) :
    89 ≤ (fs.read p).length ∧ ((fs.read p).length - 89) % 154 = 0 := by
  simp only [krenq_status, Bool.and_eq_true, decide_eq_true_eq] at h
  exact h.1

/-- The engine after `extract_key` has read `keyname` for the first time. -/
theorem extract_key_fresh_index (self : Krenq) (keyname : Path) (v : Bytes) :
    (self.m_kenmap.insert keyname v).index keyname [] = (v, self.m_kenmap.insert keyname v) := by
  simp [PMap.index, PMap.insert]

/-- When the key file is read for the first time, the file is classified as
encrypted and the two digests agree, `decrypt` transforms the file. -/
theorem decrypt_accepts (H : HashProvider) (O : StatusOracle) (self : Krenq) (g : Globals)
    (fs : FS) (filename keyname : Path)
    (hnone : g.g_kmap keyname = none) (hlen : (fs.read keyname).length = g_encryptedKlen)
    (henc : (krenq_status O fs filename).isEncrypted = true)
    (hdig : get_string_hash H (read_at (fs.read keyname) 0 32) =
      (krenq_status O fs filename).footerDigest)
    (hsz : (fs.read filename).length < sizeMax) :
    decrypt H O self g fs filename keyname =
      .ok (true,
        { self with
          m_kenmap := self.m_kenmap.insert keyname (read_at (fs.read keyname) 0 32)
          m_emap := self.m_emap.insert filename keyname },
        { g with g_kmap := g.g_kmap.insert keyname (self_pad (Key.ofRaw (fs.read keyname)).text) },
        remove_padding O
          ((fs.write (filename ++ ".krenqdectemp")
              (decrypt_blocks (fs.read filename) (self_pad (Key.ofRaw (fs.read keyname)).text)
                (((fs.read filename).length - 89) / g_actualKlen) 57)).rename
            (filename ++ ".krenqdectemp") filename)
          filename) := by
  have hs := (krenq_status_encrypted_size O fs filename henc).1
  have hn : ((fs.read filename).length + sizeMax - (32 * 2 + 25)) % sizeMax =
      (fs.read filename).length - 89 := by
    simp only [sizeMax] at *
    omega
  simp only [decrypt, extract_key_fresh self g fs keyname hnone hlen, PMap.contains,
    extract_key_fresh_index, henc, hdig, krenq_status_size, hn]
  simp [PMap.insert, PMap.index]

/-- When the digest of the cached key bytes differs from the footer, `decrypt`
returns false and the files stay as they are. -/
theorem decrypt_rejects (H : HashProvider) (O : StatusOracle) (self : Krenq) (g : Globals)
    (fs : FS) (filename keyname : Path)
    (hnone : g.g_kmap keyname = none) (hlen : (fs.read keyname).length = g_encryptedKlen)
    (hdig : get_string_hash H (read_at (fs.read keyname) 0 32) ≠
      (krenq_status O fs filename).footerDigest) :
    decrypt H O self g fs filename keyname =
      .ok (false,
        { self with m_kenmap := self.m_kenmap.insert keyname (read_at (fs.read keyname) 0 32) },
        { g with g_kmap := g.g_kmap.insert keyname (self_pad (Key.ofRaw (fs.read keyname)).text) },
        fs) := by
  by_cases henc : (krenq_status O fs filename).isEncrypted = true
  · simp only [decrypt, extract_key_fresh self g fs keyname hnone hlen, PMap.contains,
      extract_key_fresh_index, henc, hdig]
    simp [PMap.insert, hdig]
  · simp only [decrypt, extract_key_fresh self g fs keyname hnone hlen, PMap.contains, henc]
    simp [PMap.insert]

/-! ## Decrypting what `encrypt` wrote -/

theorem decrypt_blocks_container (hdr pfx ftr P key : Bytes) (m : Nat)
    (hh : hdr.length = 32) (hp : pfx.length = 25) (hP : P.length = m * g_actualKlen) :
    decrypt_blocks (hdr ++ pfx ++ encrypt_blocks P key m 0 ++ ftr) key m 57 = P := by
  apply ext_getD
  · rw [decrypt_blocks_eq, encrypt_blocks_length, hP]
  · intro j hj
    rw [decrypt_blocks_eq, encrypt_blocks_length] at hj
    rw [decrypt_blocks_eq, encrypt_blocks_getD _ _ _ _ _ hj]
    have h1 : (hdr ++ pfx ++ encrypt_blocks P key m 0 ++ ftr).getD (57 + j) 0 =
        (encrypt_blocks P key m 0).getD j 0 := by
      rw [getD_append_left0 _ _ _ (by simp [encrypt_blocks_length, hh, hp]; omega),
        getD_append_right0 _ _ _ (by simp [hh, hp])]
      simp [hh, hp]
    rw [h1, encrypt_blocks_getD _ _ _ _ _ hj, Nat.zero_add, Nat.xor_cancel_right]

theorem count_padding_window (F : Bytes) (padn : Nat) (hF : F ≠ [])
    (hlast : F.getLast? ≠ some padByte) (h1 : padn < g_actualKlen)
    (h2 : g_actualKlen ≤ F.length + padn) :
    count_padding
      ((F ++ List.replicate padn padByte).drop
        ((F ++ List.replicate padn padByte).length - g_actualKlen)).reverse = padn := by
  have hFl : 0 < F.length := List.length_pos.mpr hF
  have hn : (F ++ List.replicate padn padByte).length - g_actualKlen < F.length := by
    simp only [List.length_append, List.length_replicate]; omega
  set n := (F ++ List.replicate padn padByte).length - g_actualKlen with hndef
  rw [List.drop_append_of_le_length (le_of_lt hn), List.reverse_append, List.reverse_replicate]
  apply count_padding_replicate
  rw [List.head?_reverse]
  have : (F.drop n).getLast? = F.getLast? := by
    rw [List.getLast?_drop]
    simp [Nat.not_le.mpr hn]
  rw [this]
  exact hlast

theorem unpad_pad (F : Bytes) (padn : Nat) (hF : F ≠ [])
    (hlast : F.getLast? ≠ some padByte) (h1 : padn < g_actualKlen)
    (h2 : g_actualKlen ≤ F.length + padn) :
    (F ++ List.replicate padn padByte).take
      ((F ++ List.replicate padn padByte).length -
        count_padding ((F ++ List.replicate padn padByte).drop
          ((F ++ List.replicate padn padByte).length - g_actualKlen)).reverse) = F := by
  rw [count_padding_window F padn hF hlast h1 h2]
  simp

theorem encrypt_container_length (H : HashProvider) (O : StatusOracle) (pfx : Bytes) (self : Krenq)
    (g : Globals) (fs : FS) (filename : Path) (hpfx : pfx.length = 25)
    (henc : (encrypt H O pfx self g fs filename).1 = true) :
    ((encrypt H O pfx self g fs filename).2.read filename).length =
      89 + ceilBlocks (fs.read filename).length * g_actualKlen := by
  have hplain : (krenq_status O fs filename).isEncrypted = false := by
    by_contra hc
    simp [encrypt, hc] at henc
  have hF : fs.read filename ≠ [] := by
    intro hc
    simp [encrypt, hplain, krenq_status_size, hc] at henc
  rw [encrypt_read H O pfx self g fs filename hF hplain]
  simp only [List.length_append, get_file_hash_length, get_string_hash_length, hpfx,
    encrypt_blocks_length]
  omega

theorem drop_footer (a ftr : Bytes) (h : ftr.length = 32) :
    (a ++ ftr).drop ((a ++ ftr).length - 32) = ftr := by
  have : (a ++ ftr).length - 32 = a.length := by simp [h]
  rw [this, List.drop_left]

/-- The status of the file `encrypt` wrote, once the oracle sees its marker:
classified as encrypted, with the key hash as footer. -/
theorem krenq_status_container (H : HashProvider) (O : StatusOracle) (pfx : Bytes) (self : Krenq)
    (g : Globals) (fs : FS) (filename : Path) (hF : fs.read filename ≠ [])
    (hplain : (krenq_status O fs filename).isEncrypted = false) (hpfx : pfx.length = 25)
    (hmark : O.marker ((encrypt H O pfx self g fs filename).2.read filename) = true) :
    (krenq_status O (encrypt H O pfx self g fs filename).2 filename).isEncrypted = true ∧
      (krenq_status O (encrypt H O pfx self g fs filename).2 filename).footerDigest =
        get_string_hash H self.m_encryptedKey := by
  have hlen := encrypt_container_length H O pfx self g fs filename hpfx
    (encrypt_fst H O pfx self g fs filename hF hplain)
  constructor
  · simp only [krenq_status, hmark, hlen, Bool.and_true, Bool.and_eq_true, decide_eq_true_eq]
    simp [g_actualKlen]
  · simp only [krenq_status]
    rw [encrypt_read H O pfx self g fs filename hF hplain]
    exact drop_footer _ _ (get_string_hash_length _ _)

/-- Decrypting the file `encrypt` wrote with a key file whose cached 32 bytes
read, as a C string, like the engine's raw key: the key check passes and the
blocks are transformed with the text extracted from that key file. -/
theorem decrypt_after_encrypt (H : HashProvider) (O : StatusOracle) (pfx : Bytes) (self : Krenq)
    (g : Globals) (fs : FS) (filename keyname : Path) (hF : fs.read filename ≠ [])
    (hplain : (krenq_status O fs filename).isEncrypted = false) (hpfx : pfx.length = 25)
    (hmark : O.marker ((encrypt H O pfx self g fs filename).2.read filename) = true)
    (hkflen : (fs.read keyname).length = g_encryptedKlen)
    (hcstr : c_str (read_at (fs.read keyname) 0 32) = c_str self.m_encryptedKey)
    (hnone : g.g_kmap keyname = none)
    (hne1 : keyname ≠ filename) (hne2 : keyname ≠ filename ++ ".krenqenctemp")
    (hsz : (fs.read filename).length + 243 ≤ sizeMax) :
    decrypt H O self g (encrypt H O pfx self g fs filename).2 filename keyname =
      .ok (true,
        { self with
          m_kenmap := self.m_kenmap.insert keyname (read_at (fs.read keyname) 0 32)
          m_emap := self.m_emap.insert filename keyname },
        { g with g_kmap := g.g_kmap.insert keyname (self_pad (Key.ofRaw (fs.read keyname)).text) },
        remove_padding O
          (((encrypt H O pfx self g fs filename).2.write (filename ++ ".krenqdectemp")
              (decrypt_blocks ((encrypt H O pfx self g fs filename).2.read filename)
                (self_pad (Key.ofRaw (fs.read keyname)).text)
                (ceilBlocks (fs.read filename).length) 57)).rename
            (filename ++ ".krenqdectemp") filename)
          filename) := by
  have hkf := encrypt_read_other H O pfx self g fs filename keyname hne1 hne2
  have hlen := encrypt_container_length H O pfx self g fs filename hpfx
    (encrypt_fst H O pfx self g fs filename hF hplain)
  obtain ⟨henc, hfoot⟩ := krenq_status_container H O pfx self g fs filename hF hplain hpfx hmark
  have hlt := ceilBlocks_lt (fs.read filename).length
  have hdig : get_string_hash H (read_at ((encrypt H O pfx self g fs filename).2.read keyname) 0 32) =
      (krenq_status O (encrypt H O pfx self g fs filename).2 filename).footerDigest := by
    rw [hfoot, hkf]
    simp only [get_string_hash, hcstr]
  have hn : (((encrypt H O pfx self g fs filename).2.read filename).length - 89) / g_actualKlen =
      ceilBlocks (fs.read filename).length := by
    rw [hlen, Nat.add_sub_cancel_left]
    exact Nat.mul_div_cancel _ (by decide)
  have := decrypt_accepts H O self g (encrypt H O pfx self g fs filename).2 filename keyname hnone
    (by rw [hkf]; exact hkflen) henc hdig (by
      rw [hlen]
      simp only [g_actualKlen, sizeMax] at *
      omega)
  rw [this, hn, hkf]

/-- The file after `decrypt_after_encrypt`: the transformed blocks, cut by
`remove_padding`. -/
theorem read_after_decrypt (O : StatusOracle) (fsE : FS) (filename : Path) (out : Bytes)
    (h1 : g_actualKlen ≤ out.length) (h2 : out.length < sizeMax) :
    (remove_padding O
        ((fsE.write (filename ++ ".krenqdectemp") out).rename (filename ++ ".krenqdectemp")
          filename)
        filename).read filename =
      out.take (out.length - count_padding (out.drop (out.length - g_actualKlen)).reverse) := by
  have hr : ((fsE.write (filename ++ ".krenqdectemp") out).rename (filename ++ ".krenqdectemp")
      filename).read filename = out := by
    rw [read_rename_dst, read_write_same]
  have := remove_padding_read O _ filename (by rw [hr]; exact h1) (by rw [hr]; exact h2)
  rw [this, hr]

/-! ## What `remove_padding` cuts -/

/-- On a string of at least 154 bytes, the count taken over the last 154 bytes
splits the string into what is kept and the counted padding bytes; what is kept
does not end in a padding byte unless the whole window was counted. -/
theorem count_padding_tail (d : Bytes) (h : g_actualKlen ≤ d.length) :
    count_padding (d.drop (d.length - g_actualKlen)).reverse ≤ g_actualKlen ∧
      d = d.take (d.length - count_padding (d.drop (d.length - g_actualKlen)).reverse) ++
        List.replicate (count_padding (d.drop (d.length - g_actualKlen)).reverse) padByte ∧
      (count_padding (d.drop (d.length - g_actualKlen)).reverse < g_actualKlen →
        (d.take (d.length - count_padding (d.drop (d.length - g_actualKlen)).reverse)).getLast? ≠
          some padByte) := by
  simp only [g_actualKlen] at *
  set w := d.drop (d.length - 154) with hw
  have hwl : w.length = 154 := by simp [hw]; omega
  obtain ⟨hs1, hs2⟩ := count_padding_reverse w
  have hle := count_padding_le w.reverse
  rw [List.length_reverse, hwl] at hle
  rw [hwl] at hs1 hs2
  set k := count_padding w.reverse with hk
  have hdrop : d.drop (d.length - k) = List.replicate k padByte := by
    have e1 : d.drop (d.length - k) = w.drop (154 - k) := by
      have e0 : d.length - 154 + (154 - k) = d.length - k := by omega
      rw [hw, List.drop_drop, e0]
    rw [e1]
    conv_lhs => rw [hs1]
    rw [List.drop_left']
    simp [hwl]
  refine ⟨hle, ?_, ?_⟩
  · conv_lhs => rw [← List.take_append_drop (d.length - k) d]
    rw [hdrop]
  · intro hk154
    have e2 : d.take (d.length - k) = d.take (d.length - 154) ++ w.take (154 - k) := by
      have e3 : d.length - k = (d.length - 154) + (154 - k) := by omega
      rw [e3, List.take_add, hw]
    have hne : w.take (154 - k) ≠ [] := by
      intro hc
      have := congrArg List.length hc
      simp [hwl] at this
      omega
    rw [e2, List.getLast?_append_of_ne_nil _ hne]
    exact hs2

theorem count_padding_append (p : Nat) (xs : Bytes) :
    count_padding (List.replicate p padByte ++ xs) = p + count_padding xs := by
  induction p with
  | zero => simp
  | succ m ih =>
    rw [List.replicate_succ, List.cons_append]
    simp only [count_padding, bne_self_eq_false, Bool.false_eq_true, ↓reduceIte, ih]
    omega

/-- When the content ends in a padding byte, the count over the last window of
the padded content is larger than the padding that was added. -/
theorem count_padding_exceeds (F : Bytes) (padn : Nat) (hF : F ≠ [])
    (hlast : F.getLast? = some padByte) (h1 : padn < g_actualKlen)
    (h2 : g_actualKlen ≤ F.length + padn) :
    padn < count_padding
      ((F ++ List.replicate padn padByte).drop
        ((F ++ List.replicate padn padByte).length - g_actualKlen)).reverse := by
  have hFl : 0 < F.length := List.length_pos.mpr hF
  have hn : (F ++ List.replicate padn padByte).length - g_actualKlen < F.length := by
    simp only [List.length_append, List.length_replicate]; omega
  set n := (F ++ List.replicate padn padByte).length - g_actualKlen with hndef
  rw [List.drop_append_of_le_length (le_of_lt hn), List.reverse_append, List.reverse_replicate]
  have hdl : (F.drop n).getLast? = some padByte := by
    rw [List.getLast?_drop]
    simp [Nat.not_le.mpr hn, hlast]
  obtain ⟨rest, hrest⟩ : ∃ rest, (F.drop n).reverse = padByte :: rest := by
    cases hr : (F.drop n).reverse with
    | nil =>
      rw [← List.head?_reverse, hr] at hdl
      simp at hdl
    | cons b rest =>
      rw [← List.head?_reverse, hr] at hdl
      simp at hdl
      exact ⟨rest, by rw [hdl]⟩
  rw [hrest]
  have hc := count_padding_append padn (padByte :: rest)
  rw [hc]
  simp [count_padding]

/-- When no key text is stored beforehand, the key text `generate_key` leaves
in `g_actualKey` is the padded natural text of the generated key. -/
theorem construct_actualKey_of_empty (entries : List Path) (g0 : Globals) (e : Entropy)
    (h0 : g0.g_actualKey = []) :
    (construct entries g0 e).2.g_actualKey = self_pad (construct entries g0 e).1.m_key.text := by
  simp only [construct, generate_key, h0, Key.text, List.nil_append]

/-- What `encrypt` then `decrypt` with the engine's own key file leave in the
file, when no key text was stored before the engine was built: the padded content, cut by the count
`remove_padding` takes over its last 154 bytes. -/
theorem roundtrip_eq (H : HashProvider) (O : StatusOracle) (pfx : Bytes)
    (entries : List Path) (g0 : Globals) (e : Entropy) (fs : FS) (filename keyname : Path)
    (h0 : g0.g_actualKey = []) (hnone : g0.g_kmap keyname = none)
    (hF : fs.read filename ≠ [])
    (hplain : (krenq_status O fs filename).isEncrypted = false)
    (hpfx : pfx.length = 25)
    (hkeyfile : fs.read keyname = (construct entries g0 e).1.m_encryptedKey)
    (hne1 : keyname ≠ filename) (hne2 : keyname ≠ filename ++ ".krenqenctemp")
    (hmark : O.marker ((encrypt H O pfx (construct entries g0 e).1
      (construct entries g0 e).2 fs filename).2.read filename) = true)
    (hsz : (fs.read filename).length + 243 ≤ sizeMax) :
    roundtrip H O pfx (construct entries g0 e).1 (construct entries g0 e).2
      fs filename keyname =
      some (true,
        (fs.read filename ++ List.replicate
          (ceilBlocks (fs.read filename).length * g_actualKlen - (fs.read filename).length)
          padByte).take
          ((fs.read filename ++ List.replicate
            (ceilBlocks (fs.read filename).length * g_actualKlen - (fs.read filename).length)
            padByte).length -
            count_padding ((fs.read filename ++ List.replicate
              (ceilBlocks (fs.read filename).length * g_actualKlen - (fs.read filename).length)
              padByte).drop
              ((fs.read filename ++ List.replicate
                (ceilBlocks (fs.read filename).length * g_actualKlen - (fs.read filename).length)
                padByte).length - g_actualKlen)).reverse)) := by
  have hd := decrypt_after_encrypt H O pfx (construct entries g0 e).1
    (construct entries g0 e).2 fs filename keyname hF hplain hpfx hmark
    (by rw [hkeyfile]; exact construct_raw_length _ _ _)
    (by rw [hkeyfile]; exact c_str_read_at_32 entries g0 e _
          (construct_raw_length _ _ _) rfl)
    hnone hne1 hne2 hsz
  have hkey : self_pad (Key.ofRaw (fs.read keyname)).text =
      (construct entries g0 e).2.g_actualKey := by
    rw [hkeyfile, construct_ofRaw, construct_actualKey_of_empty entries g0 e h0]
  have hge := ceilBlocks_ge (fs.read filename).length
  have hlt := ceilBlocks_lt (fs.read filename).length
  have hpos := ceilBlocks_pos (fs.read filename).length (by simpa using hF)
  have hP : (fs.read filename ++ List.replicate
      (ceilBlocks (fs.read filename).length * g_actualKlen - (fs.read filename).length) padByte).length
      = ceilBlocks (fs.read filename).length * g_actualKlen := by
    simp only [List.length_append, List.length_replicate]
    omega
  have hout : decrypt_blocks ((encrypt H O pfx (construct entries g0 e).1
      (construct entries g0 e).2 fs filename).2.read filename)
      (self_pad (Key.ofRaw (fs.read keyname)).text) (ceilBlocks (fs.read filename).length) 57 =
      fs.read filename ++ List.replicate
        (ceilBlocks (fs.read filename).length * g_actualKlen - (fs.read filename).length) padByte := by
    rw [encrypt_read H O pfx _ _ fs filename hF hplain, hkey]
    exact decrypt_blocks_container _ _ _ _ _ _ (get_file_hash_length _ _ _) hpfx hP
  have h154 : g_actualKlen ≤ ceilBlocks (fs.read filename).length * g_actualKlen :=
    Nat.le_mul_of_pos_left _ hpos
  simp only [roundtrip, hd, hout]
  rw [read_after_decrypt _ _ _ _ (by rw [hP]; exact h154) (by
      rw [hP]
      simp only [g_actualKlen, sizeMax] at *
      omega)]

/-- After `extract_key` has returned, the key text registry holds the path. -/
theorem extract_key_contains (self : Krenq) (g : Globals) (fs : FS) (keyname : Path)
    (self1 : Krenq) (g1 : Globals) (h : extract_key self g fs keyname = .ok (self1, g1)) :
    g1.g_kmap.contains keyname = true ∧ self1.m_emap = self.m_emap := by
  unfold extract_key at h
  by_cases hc : g.g_kmap.contains keyname = true
  · simp only [hc, ↓reduceIte, Except.ok.injEq, Prod.mk.injEq] at h
    obtain ⟨h1, h2⟩ := h
    subst h1 h2
    exact ⟨hc, rfl⟩
  · simp only [hc, Bool.false_eq_true, ↓reduceIte] at h
    by_cases hl : (fs.read keyname).length ≠ g_encryptedKlen
    · simp [hl] at h
    · simp only [hl, ↓reduceIte, Except.ok.injEq, Prod.mk.injEq] at h
      obtain ⟨h1, h2⟩ := h
      subst h1 h2
      exact ⟨by simp [PMap.contains, PMap.insert], rfl⟩

theorem save_key_saved (self : Krenq) (fs : FS) (ds : Dirs) (keyname : Path)
    (h : self.m_keyIsSaved = true) : save_key self fs ds keyname = (none, self, fs) := by
  simp [save_key, h]

theorem save_key_exists (self : Krenq) (fs : FS) (ds : Dirs) (keyname : Path)
    (h : self.m_keyIsSaved = false) (hex : fs_exists fs ds (main_key keyname) = true) :
    save_key self fs ds keyname = (some Error.KeyAlreadyExists, self, fs) := by
  simp [save_key, h, hex]

theorem save_key_free (self : Krenq) (fs : FS) (ds : Dirs) (keyname : Path)
    (h : self.m_keyIsSaved = false) (hex : fs_exists fs ds (main_key keyname) = false) :
    save_key self fs ds keyname =
      (none, { self with m_keyname := main_key keyname, m_keyIsSaved := true },
        fs.create (main_key keyname) self.m_encryptedKey) := by
  simp [save_key, h, hex]

/-! ## Running `re_encrypt` -/

theorem index_of_some {V : Type} (m : PMap V) (k : Path) (v dflt : V) (h : m k = some v) :
    m.index k dflt = (v, m) := by
  simp [PMap.index, h]

theorem re_encrypt_run (H : HashProvider) (O : StatusOracle) (pfx : Bytes) (self : Krenq)
    (g : Globals) (fs : FS) (filename k : Path) (text raw : Bytes)
    (hemap : self.m_emap filename = some k) (hkmap : g.g_kmap k = some text)
    (hken : self.m_kenmap k = some raw)
    (hF : fs.read filename ≠ [])
    (hplain : (krenq_status O fs filename).isEncrypted = false) :
    re_encrypt H O pfx self g fs filename =
      (true, self, g,
        ((add_padding fs filename (fs.read filename).length).write (filename ++ ".krenqrcrypttemp")
          (get_file_hash H fs filename ++ pfx ++
            encrypt_blocks
              (fs.read filename ++
                List.replicate (ceilBlocks (fs.read filename).length * g_actualKlen -
                  (fs.read filename).length) padByte)
              text (ceilBlocks (fs.read filename).length) 0 ++
            get_string_hash H raw)).rename (filename ++ ".krenqrcrypttemp") filename) := by
  have hS : (fs.read filename).length ≠ 0 := by simpa using hF
  have hdiv : ceilBlocks (fs.read filename).length * g_actualKlen / g_actualKlen =
      ceilBlocks (fs.read filename).length := Nat.mul_div_cancel _ (by decide)
  simp only [re_encrypt, hplain, krenq_status_size, hS, Bool.false_eq_true, ↓reduceIte,
    index_of_some _ _ _ _ hemap, index_of_some _ _ _ _ hkmap, index_of_some _ _ _ _ hken,
    add_padding_read, hdiv]

/-- `decrypt` with a key file the registry already holds: when the file is
classified as encrypted and the digest of the cached raw bytes is the footer,
the blocks are transformed and true is returned. -/
theorem decrypt_cached (H : HashProvider) (O : StatusOracle) (self : Krenq) (g : Globals)
    (fs : FS) (filename k : Path) (text raw : Bytes)
    (hkmap : g.g_kmap k = some text) (hken : self.m_kenmap k = some raw)
    (henc : (krenq_status O fs filename).isEncrypted = true)
    (hdig : get_string_hash H raw = (krenq_status O fs filename).footerDigest) :
    ∃ fs1, decrypt H O self g fs filename k =
      .ok (true, { self with m_emap := self.m_emap.insert filename k }, g, fs1) := by
  have hc : g.g_kmap.contains k = true := by simp [PMap.contains, hkmap]
  have hex : extract_key self g fs k = .ok (self, g) := by simp [extract_key, hc]
  simp only [decrypt, hex, hc, henc, Bool.not_true, Bool.false_eq_true, ↓reduceIte,
    index_of_some _ _ _ _ hken, index_of_some _ _ _ _ hkmap, hdig, ne_eq, not_true_eq_false]
  exact ⟨_, rfl⟩

/-! ## The entry list -/

theorem count_iter_swap (v : List Path) (i j : Nat) (hi : i < v.length) (hj : j < v.length)
    (x : Path) : (iter_swap v i j).count x = v.count x := by
  have hgi : v.getD i "" = v[i] := by simp [List.getD_eq_getElem?_getD, hi]
  have hgj : v.getD j "" = v[j] := by simp [List.getD_eq_getElem?_getD, hj]
  have hj2 : j < (v.set i v[j]).length := by simpa using hj
  have hget : (v.set i v[j])[j] = v[j] := by
    rw [List.getElem_set]
    split <;> rfl
  have hci : (if v[i] == x then 1 else 0) ≤ v.count x := by
    split
    · rename_i h
      have hx : v[i] = x := by simpa using h
      exact List.count_pos_iff.mpr (hx ▸ List.getElem_mem hi)
    · exact Nat.zero_le _
  simp only [iter_swap, hgi, hgj]
  rw [List.count_set _ _ _ _ hj2, List.count_set _ _ _ _ hi, hget]
  generalize (if v[i] == x then 1 else 0) = a at hci ⊢
  generalize (if v[j] == x then 1 else 0) = b
  omega

theorem iter_swap_length (v : List Path) (i j : Nat) : (iter_swap v i j).length = v.length := by
  simp [iter_swap]

theorem iter_swap_getLast (v : List Path) (i : Nat) (hi : i < v.length) :
    (iter_swap v i (v.length - 1)).getLast? = some v[i] := by
  have hgi : v.getD i "" = v[i] := by simp [List.getD_eq_getElem?_getD, hi]
  rw [List.getLast?_eq_getElem?, iter_swap_length]
  simp only [iter_swap, hgi]
  rw [List.getElem?_set_self]  
  simp
  omega

/-- Removing a name that is present leaves a permutation of the list with one
occurrence of the name erased. -/
theorem remove_entry_perm (v : List Path) (entry : Path) (h : entry ∈ v) :
    (remove_entry v entry).Perm (v.erase entry) := by
  have hi : find v entry < v.length := List.indexOf_lt_length.mpr h
  have hne : find v entry ≠ v.length := Nat.ne_of_lt hi
  have hvi : v[find v entry] = entry := List.getElem_indexOf hi
  simp only [remove_entry, hne, ne_eq, not_false_eq_true, ↓reduceIte, pop_back]
  have hlast := iter_swap_getLast v (find v entry) hi
  rw [hvi] at hlast
  have hsplit := List.dropLast_append_getLast? entry hlast
  rw [List.perm_iff_count]
  intro x
  have hc := count_iter_swap v (find v entry) (v.length - 1) hi (by omega) x
  rw [← hsplit, List.count_append] at hc
  rw [List.count_erase]
  simp only [List.count_singleton, beq_iff_eq] at hc ⊢
  split <;> split at hc <;> simp_all <;> omega

theorem remove_entry_absent (v : List Path) (entry : Path) (h : entry ∉ v) :
    remove_entry v entry = v := by
  have : find v entry = v.length := List.indexOf_eq_length.mpr h
  simp [remove_entry, this]

/-! ## Filtering the indexes -/

theorem unique_from_spec (prev : Int) (l : List Int) (hs : l.Pairwise (fun a b => a ≤ b))
    (hp : ∀ y ∈ l, prev ≤ y) :
    (unique_from prev l).Pairwise (fun a b => a < b) ∧
      ∀ x, x ∈ unique_from prev l ↔ x ∈ l ∧ x ≠ prev := by
  induction l generalizing prev with
  | nil => simp [unique_from]
  | cons y rest ih =>
    rw [List.pairwise_cons] at hs
    obtain ⟨hy, hrest⟩ := hs
    have hpy : prev ≤ y := hp y (List.mem_cons_self _ _)
    by_cases hyp : y = prev
    · subst hyp
      obtain ⟨ih1, ih2⟩ := ih y hrest hy
      simp only [unique_from, ↓reduceIte]
      refine ⟨ih1, ?_⟩
      intro x
      rw [ih2 x]
      constructor
      · rintro ⟨h1, h2⟩
        exact ⟨List.mem_cons_of_mem _ h1, h2⟩
      · rintro ⟨h1, h2⟩
        rcases List.mem_cons.mp h1 with h | h
        · exact absurd h h2
        · exact ⟨h, h2⟩
    · obtain ⟨ih1, ih2⟩ := ih y hrest hy
      simp only [unique_from, hyp, ↓reduceIte]
      refine ⟨?_, ?_⟩
      · rw [List.pairwise_cons]
        refine ⟨?_, ih1⟩
        intro x hx
        obtain ⟨hx1, hx2⟩ := (ih2 x).mp hx
        have := hy x hx1
        omega
      · intro x
        rw [List.mem_cons, ih2 x, List.mem_cons]
        constructor
        · rintro (h | ⟨h1, _⟩)
          · exact ⟨Or.inl h, by rw [h]; exact hyp⟩
          · refine ⟨Or.inr h1, ?_⟩
            have := hy x h1
            omega
        · rintro ⟨h | h, _⟩
          · exact Or.inl h
          · by_cases hxy : x = y
            · exact Or.inl hxy
            · exact Or.inr ⟨h, hxy⟩

theorem unique_spec (l : List Int) (hs : l.Pairwise (fun a b => a ≤ b)) :
    (unique l).Pairwise (fun a b => a < b) ∧ ∀ x, x ∈ unique l ↔ x ∈ l := by
  cases l with
  | nil => simp [unique]
  | cons y rest =>
    rw [List.pairwise_cons] at hs
    obtain ⟨hy, hrest⟩ := hs
    obtain ⟨h1, h2⟩ := unique_from_spec y rest hrest hy
    simp only [unique]
    refine ⟨?_, ?_⟩
    · rw [List.pairwise_cons]
      refine ⟨?_, h1⟩
      intro x hx
      obtain ⟨hx1, hx2⟩ := (h2 x).mp hx
      have := hy x hx1
      omega
    · intro x
      rw [List.mem_cons, h2 x, List.mem_cons]
      constructor
      · rintro (h | ⟨h, _⟩)
        · exact Or.inl h
        · exact Or.inr h
      · rintro (h | h)
        · exact Or.inl h
        · by_cases hxy : x = y
          · exact Or.inl hxy
          · exact Or.inr ⟨h, hxy⟩

theorem filter_indexes_spec (self : Krenq) (vidx : List Int) :
    (filter_indexes self vidx).Pairwise (fun a b => a < b) ∧
      ∀ x, x ∈ filter_indexes self vidx ↔
        x ∈ vidx ∧ 1 ≤ x ∧ x ≤ (self.m_entries.length : Int) := by
  have hsorted : (vidx.insertionSort (fun a b => a ≤ b)).Pairwise (fun a b => a ≤ b) :=
    List.sorted_insertionSort (fun a b : Int => a ≤ b) vidx
  have hperm := List.perm_insertionSort (fun a b : Int => a ≤ b) vidx
  obtain ⟨h1, h2⟩ := unique_spec _ hsorted
  simp only [filter_indexes]
  refine ⟨h1.filter _, ?_⟩
  intro x
  rw [List.mem_filter, h2 x, hperm.mem_iff]
  simp only [Bool.not_eq_true', Bool.or_eq_false_iff, decide_eq_false_iff_not, not_lt, gt_iff_lt]

/-! ## The transform on bare byte strings, and the key text -/

theorem decrypt_encrypt_blocks (P key : Bytes) (m : Nat) (hP : P.length = m * g_actualKlen) :
    decrypt_blocks (encrypt_blocks P key m 0) key m 0 = P := by
  apply ext_getD
  · rw [decrypt_blocks_eq, encrypt_blocks_length, hP]
  · intro j hj
    rw [decrypt_blocks_eq, encrypt_blocks_length] at hj
    rw [decrypt_blocks_eq, encrypt_blocks_getD _ _ _ _ _ hj, Nat.zero_add,
      encrypt_blocks_getD _ _ _ _ _ hj, Nat.zero_add, Nat.xor_cancel_right]

theorem self_pad_spec (s : Bytes) (hn : s.length < 2 ^ 63) :
    (s.length ≤ 154 → self_pad s = s ++ s.take (min (154 - s.length) s.length)) ∧
      (154 < s.length → self_pad s = s ++ s) ∧
      (self_pad s).take s.length = s ∧
      ((self_pad s).length = 154 ↔ 77 ≤ s.length ∧ s.length ≤ 154) := by
  by_cases h : s.length ≤ 154
  · have hd : (g_actualKlen + sizeMax - s.length) % sizeMax = 154 - s.length := by
      simp only [g_actualKlen, sizeMax]
      omega
    have hsp : self_pad s = s ++ s.take (154 - s.length) := by
      simp only [self_pad, hd, substr, List.drop_zero]
    have htake : s.take (min (154 - s.length) s.length) = s.take (154 - s.length) := by
      rw [List.take_eq_take]
      simp
    refine ⟨fun _ => by rw [hsp, htake], fun h2 => by omega, ?_, ?_⟩
    · rw [hsp, List.take_left]
    · rw [hsp, List.length_append, List.length_take]
      omega
  · have hd : (g_actualKlen + sizeMax - s.length) % sizeMax = 154 + 2 ^ 64 - s.length := by
      simp only [g_actualKlen, sizeMax]
      omega
    have hsp : self_pad s = s ++ s := by
      simp only [self_pad, hd, substr, List.drop_zero]
      rw [List.take_of_length_le (by omega)]
    refine ⟨fun h2 => absurd h2 h, fun _ => hsp, ?_, ?_⟩
    · rw [hsp, List.take_left]
    · rw [hsp, List.length_append]
      omega

theorem self_pad_append (s : Bytes) : ∃ ext, self_pad s = s ++ ext := ⟨_, rfl⟩

theorem getD_append_of_lt (a b : Bytes) (j : Nat) (h : j < a.length) :
    (a ++ b).getD j 0 = a.getD j 0 := getD_append_left0 a b j h

/-! ## Batches by index, and the registries of a later engine -/

theorem filter_indexes_singleton (self : Krenq) (i : Int) :
    filter_indexes self [i] = [i] ∨ filter_indexes self [i] = [] := by
  simp only [filter_indexes, List.insertionSort, List.orderedInsert, unique, unique_from,
    List.filter]
  split
  · exact Or.inl rfl
  · exact Or.inr rfl

theorem re_encrypt_index_entry_skip (H : HashProvider) (O : StatusOracle) (mk : Nat → Bytes)
    (ds : Dirs) (entry : Path) (st : Krenq × Globals × FS × Nat)
    (h : st.1.m_emap.contains entry = false) :
    re_encrypt_index_entry H O mk ds entry st = st := by
  simp only [re_encrypt_index_entry, h]
  split
  · rfl
  · rfl

theorem extract_key_cached (self : Krenq) (g : Globals) (fs : FS) (keyname : Path)
    (hc : g.g_kmap.contains keyname = true) : extract_key self g fs keyname = .ok (self, g) := by
  simp [extract_key, hc]

/-! # The claims -/

/-- C1, as amended: for the first engine of a run whose key text has its 154
bytes and whose raw key is in the key file, and a non-empty file that is not
classified as encrypted and does not end in the byte `0x1F`, `encrypt` followed
by `decrypt` with that key file (the container being recognised by the status
check) returns true and leaves the file holding its original bytes.  (With a
shorter key text the program reads key bytes outside the string, so the
statement is made for the full-length text.) -/
theorem encrypt_decrypt_roundtrip (H : HashProvider) (O : StatusOracle) (pfx : Bytes)
    (entries : List Path) (e : Entropy) (fs : FS) (filename keyname : Path)
    (hF : fs.read filename ≠ [])
    (hlast : (fs.read filename).getLast? ≠ some 0x1f)
    (hplain : (krenq_status O fs filename).isEncrypted = false)
    (hpfx : pfx.length = 25)
    (_hkeytext : (construct entries Globals.init e).2.g_actualKey.length = 154)
    (hkeyfile : fs.read keyname = (construct entries Globals.init e).1.m_encryptedKey)
    (hne1 : keyname ≠ filename) (hne2 : keyname ≠ filename ++ ".krenqenctemp")
    (hmark : O.marker ((encrypt H O pfx (construct entries Globals.init e).1
      (construct entries Globals.init e).2 fs filename).2.read filename) = true)
    (hsz : (fs.read filename).length + 243 ≤ sizeMax) :
    roundtrip H O pfx (construct entries Globals.init e).1 (construct entries Globals.init e).2
      fs filename keyname = some (true, fs.read filename) := by
  have hd := decrypt_after_encrypt H O pfx (construct entries Globals.init e).1
    (construct entries Globals.init e).2 fs filename keyname hF hplain hpfx hmark
    (by rw [hkeyfile]; exact construct_raw_length _ _ _)
    (by rw [hkeyfile]; exact c_str_read_at_32 entries Globals.init e _
          (construct_raw_length _ _ _) rfl)
    rfl hne1 hne2 hsz
  have hkey : self_pad (Key.ofRaw (fs.read keyname)).text =
      (construct entries Globals.init e).2.g_actualKey := by
    rw [hkeyfile, construct_ofRaw, construct_actualKey]
  have hge := ceilBlocks_ge (fs.read filename).length
  have hlt := ceilBlocks_lt (fs.read filename).length
  have hpos := ceilBlocks_pos (fs.read filename).length (by simpa using hF)
  have hP : (fs.read filename ++ List.replicate
      (ceilBlocks (fs.read filename).length * g_actualKlen - (fs.read filename).length) padByte).length
      = ceilBlocks (fs.read filename).length * g_actualKlen := by
    simp only [List.length_append, List.length_replicate]
    omega
  have hout : decrypt_blocks ((encrypt H O pfx (construct entries Globals.init e).1
      (construct entries Globals.init e).2 fs filename).2.read filename)
      (self_pad (Key.ofRaw (fs.read keyname)).text) (ceilBlocks (fs.read filename).length) 57 =
      fs.read filename ++ List.replicate
        (ceilBlocks (fs.read filename).length * g_actualKlen - (fs.read filename).length) padByte := by
    rw [encrypt_read H O pfx _ _ fs filename hF hplain, hkey]
    exact decrypt_blocks_container _ _ _ _ _ _ (get_file_hash_length _ _ _) hpfx hP
  have h154 : g_actualKlen ≤ ceilBlocks (fs.read filename).length * g_actualKlen :=
    Nat.le_mul_of_pos_left _ hpos
  simp only [roundtrip, hd, hout]
  rw [read_after_decrypt _ _ _ _ (by rw [hP]; exact h154) (by
      rw [hP]
      simp only [g_actualKlen, sizeMax] at *
      omega)]
  rw [unpad_pad _ _ hF hlast (by omega) (by omega)]

/-- C1 amended, on the two-byte file "Hi". -/
theorem encrypt_decrypt_roundtrip_witness :
    roundtrip sampleHash sampleOracle samplePfx (construct [] Globals.init sampleEntropy).1
      (construct [] Globals.init sampleEntropy).2 (sampleDisk [72, 105]) "f" "k.krenq" =
      some (true, (sampleDisk [72, 105]).read "f") :=
  encrypt_decrypt_roundtrip sampleHash sampleOracle samplePfx [] sampleEntropy
    (sampleDisk [72, 105]) "f" "k.krenq" (by decide) (by decide) (by decide) (by decide)
    (by decide) (by decide) (by decide) (by decide) (by decide) (by decide)

/-- C1 as stated fails: the two-byte file `[0x48, 0x1F]` comes back from
`encrypt` and `decrypt` with the right key file as the one-byte file `[0x48]`. -/
theorem roundtrip_strips_trailing_sentinel :
    (sampleDisk [72, 0x1f]).read "f" = [72, 0x1f] ∧
      roundtrip sampleHash sampleOracle samplePfx (construct [] Globals.init sampleEntropy).1
        (construct [] Globals.init sampleEntropy).2 (sampleDisk [72, 0x1f]) "f" "k.krenq" =
        some (true, [72]) := by
  decide

/-- C2 on the code: a key file that agrees with the encrypting key on its
first 19 bytes (the id, the first segment and its terminator) is accepted.
`decrypt` returns true and rewrites the file, whatever the remaining 81 bytes
of the key file are. -/
theorem decrypt_accepts_other_key (H : HashProvider) (O : StatusOracle) (pfx : Bytes)
    (entries : List Path) (g : Globals) (e : Entropy) (fs : FS) (filename keyname : Path)
    (hF : fs.read filename ≠ [])
    (hplain : (krenq_status O fs filename).isEncrypted = false)
    (hpfx : pfx.length = 25)
    (hkflen : (fs.read keyname).length = 100)
    (h19 : (fs.read keyname).take 19 = (construct entries g e).1.m_encryptedKey.take 19)
    (hnone : g.g_kmap keyname = none)
    (hne1 : keyname ≠ filename) (hne2 : keyname ≠ filename ++ ".krenqenctemp")
    (hmark : O.marker ((encrypt H O pfx (construct entries g e).1 (construct entries g e).2
      fs filename).2.read filename) = true)
    (hsz : (fs.read filename).length + 243 ≤ sizeMax) :
    ∃ content, roundtrip H O pfx (construct entries g e).1 (construct entries g e).2
        fs filename keyname = some (true, content) ∧
      content ≠ (encrypt H O pfx (construct entries g e).1 (construct entries g e).2
        fs filename).2.read filename := by
  have hd := decrypt_after_encrypt H O pfx (construct entries g e).1
    (construct entries g e).2 fs filename keyname hF hplain hpfx hmark hkflen
    (c_str_read_at_32 entries g e _ hkflen h19) hnone hne1 hne2 hsz
  have hpos := ceilBlocks_pos (fs.read filename).length (by simpa using hF)
  have hlt := ceilBlocks_lt (fs.read filename).length
  have h154 : g_actualKlen ≤ ceilBlocks (fs.read filename).length * g_actualKlen :=
    Nat.le_mul_of_pos_left _ hpos
  have hlen := encrypt_container_length H O pfx (construct entries g e).1 (construct entries g e).2
    fs filename hpfx (encrypt_fst H O pfx _ _ fs filename hF hplain)
  simp only [roundtrip, hd]
  refine ⟨_, rfl, ?_⟩
  rw [read_after_decrypt _ _ _ _
    (by rw [decrypt_blocks_eq, encrypt_blocks_length]; exact h154) (by
      rw [decrypt_blocks_eq, encrypt_blocks_length]
      simp only [g_actualKlen, sizeMax] at *
      omega)]
  intro hc
  have := congrArg List.length hc
  rw [hlen, List.length_take, decrypt_blocks_eq, encrypt_blocks_length] at this
  omega

/-- C2 on the code, at a key file that differs from the encrypting key in its
last byte. -/
theorem decrypt_accepts_other_key_witness :
    otherKey ≠ (construct [] Globals.init sampleEntropy).1.m_encryptedKey ∧
    ∃ content, roundtrip sampleHash sampleOracle samplePfx (construct [] Globals.init sampleEntropy).1
        (construct [] Globals.init sampleEntropy).2
        (FS.write (FS.write (fun _ => none) "f" [72, 105]) "other.krenq" otherKey)
        "f" "other.krenq" = some (true, content) ∧
      content ≠ (encrypt sampleHash sampleOracle samplePfx (construct [] Globals.init sampleEntropy).1
        (construct [] Globals.init sampleEntropy).2
        (FS.write (FS.write (fun _ => none) "f" [72, 105]) "other.krenq" otherKey) "f").2.read "f" :=
  ⟨by decide,
   decrypt_accepts_other_key sampleHash sampleOracle samplePfx [] Globals.init sampleEntropy
    (FS.write (FS.write (fun _ => none) "f" [72, 105]) "other.krenq" otherKey) "f" "other.krenq"
    (by decide) (by decide) (by decide) (by decide) (by decide) (by decide) (by decide)
    (by decide) (by decide) (by decide)⟩

/-- The key check on an engine whose key file has not been read before in the
run: the digest `decrypt` computes from the cached first 32 bytes of the key
file equals the footer digest `encrypt` wrote with that key, so `decrypt`
passes the key check, transforms the file and returns true.  Which bytes the
file then holds is not stated here. -/
theorem key_check_passes (H : HashProvider) (O : StatusOracle) (pfx : Bytes)
    (entries : List Path) (g : Globals) (e : Entropy) (fs : FS) (filename keyname : Path)
    (hF : fs.read filename ≠ [])
    (hplain : (krenq_status O fs filename).isEncrypted = false)
    (hpfx : pfx.length = 25)
    (hkeyfile : fs.read keyname = (construct entries g e).1.m_encryptedKey)
    (hnone : g.g_kmap keyname = none)
    (hne1 : keyname ≠ filename) (hne2 : keyname ≠ filename ++ ".krenqenctemp")
    (hmark : O.marker ((encrypt H O pfx (construct entries g e).1 (construct entries g e).2
      fs filename).2.read filename) = true)
    (hsz : (fs.read filename).length + 243 ≤ sizeMax) :
    (∃ self1 g1, extract_key (construct entries g e).1 (construct entries g e).2
        (encrypt H O pfx (construct entries g e).1 (construct entries g e).2 fs filename).2
        keyname = .ok (self1, g1) ∧
      self1.m_kenmap keyname = some ((fs.read keyname).take 32) ∧
      get_string_hash H ((fs.read keyname).take 32) =
        (krenq_status O
          (encrypt H O pfx (construct entries g e).1 (construct entries g e).2 fs filename).2
          filename).footerDigest) ∧
    (krenq_status O
        (encrypt H O pfx (construct entries g e).1 (construct entries g e).2 fs filename).2
        filename).footerDigest = get_string_hash H (construct entries g e).1.m_encryptedKey ∧
    ∃ content, roundtrip H O pfx (construct entries g e).1 (construct entries g e).2
        fs filename keyname = some (true, content) := by
  have hkflen : (fs.read keyname).length = g_encryptedKlen := by
    rw [hkeyfile]; exact construct_raw_length _ _ _
  have hcstr := c_str_read_at_32 entries g e (fs.read keyname) hkflen (by rw [hkeyfile])
  have hd := decrypt_after_encrypt H O pfx (construct entries g e).1
    (construct entries g e).2 fs filename keyname hF hplain hpfx hmark hkflen hcstr hnone
    hne1 hne2 hsz
  have hkf := encrypt_read_other H O pfx (construct entries g e).1 (construct entries g e).2
    fs filename keyname hne1 hne2
  obtain ⟨_, hfoot⟩ := krenq_status_container H O pfx (construct entries g e).1
    (construct entries g e).2 fs filename hF hplain hpfx hmark
  have h32 : read_at (fs.read keyname) 0 32 = (fs.read keyname).take 32 := by
    rw [read_at_full _ _ _ (by rw [hkflen]; decide)]
    rfl
  refine ⟨⟨_, _, extract_key_fresh _ _ _ keyname hnone (by rw [hkf]; exact hkflen), ?_, ?_⟩,
    hfoot, ?_⟩
  · simp [PMap.insert, hkf, h32]
  · rw [hfoot, ← h32]
    simp only [get_string_hash, hcstr]
  · simp only [roundtrip, hd]
    exact ⟨_, rfl⟩

/-- The key check on the two-byte file "Hi" and the key of `sampleEntropy`. -/
theorem key_check_passes_witness :
    get_string_hash sampleHash
        ((construct [] Globals.init sampleEntropy).1.m_encryptedKey.take 32) =
      get_string_hash sampleHash (construct [] Globals.init sampleEntropy).1.m_encryptedKey ∧
    ∃ content, roundtrip sampleHash sampleOracle samplePfx (construct [] Globals.init sampleEntropy).1
        (construct [] Globals.init sampleEntropy).2 (sampleDisk [72, 105]) "f" "k.krenq" =
        some (true, content) :=
  have h := key_check_passes sampleHash sampleOracle samplePfx [] Globals.init sampleEntropy
    (sampleDisk [72, 105]) "f" "k.krenq" (by decide) (by decide) (by decide) (by decide)
    (by decide) (by decide) (by decide) (by decide) (by decide)
  ⟨by decide, h.2.2⟩

/-- C3 on the code, on the second engine built in a run, with the two-byte file
"Hi" and the engine's own key saved under `k2.krenq`.  The digest of the first
32 bytes of the key file is the footer `encrypt` wrote and `decrypt` returns
true, but the file is left with 140 bytes that start with `[75, 107]`, not with
its two bytes `[72, 105]`: `encrypt` XORs with the first 154 bytes of
`g_actualKey`, the key text of the first engine, `decrypt` with the text of
the key file.  And once another engine has read `k2.krenq`, the same `decrypt`
with the same key file fails the key check, the digest being taken of the
empty string this engine holds for the path: it returns false and leaves the
container of 243 bytes. -/
theorem correct_key_does_not_recover :
    (laterDisk [72, 105]).read "k2.krenq" = laterEngine.m_encryptedKey ∧
      laterGlobals.g_actualKey.take 154 = sampleGlobals.g_actualKey ∧
      get_string_hash sampleHash (((laterDisk [72, 105]).read "k2.krenq").take 32) =
        (krenq_status sampleOracle
          (encrypt sampleHash sampleOracle samplePfx laterEngine laterGlobals
            (laterDisk [72, 105]) "f").2 "f").footerDigest ∧
      (roundtrip sampleHash sampleOracle samplePfx laterEngine laterGlobals (laterDisk [72, 105])
          "f" "k2.krenq").map (fun r => (r.1, r.2.take 2, r.2.length)) =
        some (true, [75, 107], 140) ∧
      readGlobals.g_kmap.contains "k2.krenq" = true ∧
      laterEngine.m_kenmap "k2.krenq" = none ∧
      get_string_hash sampleHash (laterEngine.m_kenmap.index "k2.krenq" []).1 ≠
        (krenq_status sampleOracle
          (encrypt sampleHash sampleOracle samplePfx laterEngine readGlobals
            (laterDisk [72, 105]) "f").2 "f").footerDigest ∧
      (roundtrip sampleHash sampleOracle samplePfx laterEngine readGlobals (laterDisk [72, 105])
          "f" "k2.krenq").map (fun r => (r.1, r.2.length)) = some (false, 243) := by
  decide

/-- C4 on the code: the key generated from the random numbers 0 to 4 has a
natural text of 61 bytes and a key text of 122 bytes, both in `generate_key`
and when `extract_key` reads its key file back; the key file of 100 zero bytes
yields a key text of 10 bytes; and the second engine constructed in a run,
appending to the 154 bytes the first one left in `g_actualKey`, ends with a key
text of 520 bytes. -/
theorem key_text_shorter_than_154 :
    (construct [] Globals.init smallEntropy).1.m_key.text.length = 61 ∧
      (construct [] Globals.init smallEntropy).2.g_actualKey.length = 122 ∧
      (extracted_text (construct [] Globals.init smallEntropy).1
          (construct [] Globals.init smallEntropy).2
          (FS.write (fun _ => none) "k.krenq"
            (construct [] Globals.init smallEntropy).1.m_encryptedKey)
          "k.krenq").map List.length = some 122 ∧
      (extracted_text (construct [] Globals.init smallEntropy).1
          (construct [] Globals.init smallEntropy).2
          (FS.write (fun _ => none) "z.krenq" (List.replicate 100 0)) "z.krenq").map List.length =
        some 10 ∧
      (construct [] Globals.init sampleEntropy).2.g_actualKey.length = 154 ∧
      (construct [] (construct [] Globals.init sampleEntropy).2 sampleEntropy).2.g_actualKey.length =
        520 := by
  decide

/-- C5 on the code: for every generated key the footer `encrypt` writes is
the digest of the raw key read as a C string, that is of the bytes before its
first NUL, at most 18 of its 100 bytes. -/
theorem footer_is_digest_of_c_str (H : HashProvider) (O : StatusOracle) (pfx : Bytes)
    (entries : List Path) (g : Globals) (e : Entropy) (fs : FS) (filename : Path)
    (hF : fs.read filename ≠ [])
    (hplain : (krenq_status O fs filename).isEncrypted = false) :
    ((encrypt H O pfx (construct entries g e).1 (construct entries g e).2 fs filename).2.read
        filename).drop
        (((encrypt H O pfx (construct entries g e).1 (construct entries g e).2 fs filename).2.read
          filename).length - 32) =
      H.digest (c_str (construct entries g e).1.m_encryptedKey) ∧
    (c_str (construct entries g e).1.m_encryptedKey).length ≤ 18 ∧
    (construct entries g e).1.m_encryptedKey.length = 100 := by
  refine ⟨?_, construct_c_str_length _ _ _, construct_raw_length _ _ _⟩
  rw [encrypt_read H O pfx _ _ fs filename hF hplain]
  exact drop_footer _ _ (get_string_hash_length _ _)

/-- C5 on the code, at the key of `sampleEntropy`: the footer is the digest
of the 18 bytes before the first NUL, which `sampleHash` tells apart from the
digest of the 100 bytes. -/
theorem footer_is_digest_of_c_str_witness :
    ((encrypt sampleHash sampleOracle samplePfx (construct [] Globals.init sampleEntropy).1
        (construct [] Globals.init sampleEntropy).2 sampleFS "f").2.read "f").drop
        (((encrypt sampleHash sampleOracle samplePfx (construct [] Globals.init sampleEntropy).1
          (construct [] Globals.init sampleEntropy).2 sampleFS "f").2.read "f").length - 32) =
      sampleHash.digest ((construct [] Globals.init sampleEntropy).1.m_encryptedKey.take 18) ∧
    sampleHash.digest ((construct [] Globals.init sampleEntropy).1.m_encryptedKey.take 18) ≠
      sampleHash.digest (construct [] Globals.init sampleEntropy).1.m_encryptedKey :=
  ⟨(footer_is_digest_of_c_str sampleHash sampleOracle samplePfx [] Globals.init sampleEntropy
      sampleFS "f" (by decide) (by decide)).1.trans (by decide), by decide⟩

/-- C6 on the code: the 32 bytes `encrypt` writes at offset 0 are the digest
of the content read as a C string, that is of the bytes before the first NUL
byte of the file. -/
theorem header_is_digest_of_c_str (H : HashProvider) (O : StatusOracle) (pfx : Bytes)
    (self : Krenq) (g : Globals) (fs : FS) (filename : Path)
    (hF : fs.read filename ≠ [])
    (hplain : (krenq_status O fs filename).isEncrypted = false) :
    ((encrypt H O pfx self g fs filename).2.read filename).take 32 =
      H.digest ((fs.read filename).takeWhile (fun b => b != 0)) := by
  rw [encrypt_read H O pfx self g fs filename hF hplain]
  have h : (get_file_hash H fs filename).length = 32 := get_file_hash_length _ _ _
  rw [List.append_assoc, List.append_assoc, List.take_left' h]
  rfl

/-- C6 on the code, at the three-byte file `[0x41, 0x00, 0x42]`: the header is
the digest of the one byte `[0x41]`, which `sampleHash` tells apart from the
digest of the three bytes. -/
theorem header_is_digest_of_c_str_witness :
    ((encrypt sampleHash sampleOracle samplePfx (construct [] Globals.init sampleEntropy).1
        (construct [] Globals.init sampleEntropy).2
        (FS.write (fun _ => none) "f" [0x41, 0x00, 0x42]) "f").2.read "f").take 32 =
      sampleHash.digest [0x41] ∧
    sampleHash.digest [0x41] ≠ sampleHash.digest [0x41, 0x00, 0x42] :=
  ⟨header_is_digest_of_c_str sampleHash sampleOracle samplePfx _ _
      (FS.write (fun _ => none) "f" [0x41, 0x00, 0x42]) "f" (by decide) (by decide),
   by decide⟩

/-- C7: for a non-empty file of size `S` that is not classified as encrypted,
a 25-byte metadata block `pfx` and a 154-byte key text, `encrypt` returns true
and leaves the file holding [32-byte header digest][pfx][ciphertext][32-byte
footer digest]; the ciphertext has `ceil(S/154)*154` bytes and its byte `j` is
byte `j` of the content padded with `0x1F`, XOR byte `j mod 154` of the key
text. -/
theorem encrypt_layout (H : HashProvider) (O : StatusOracle) (pfx : Bytes) (self : Krenq)
    (g : Globals) (fs : FS) (filename : Path) (hF : fs.read filename ≠ [])
    (hplain : (krenq_status O fs filename).isEncrypted = false)
    (hpfx : pfx.length = 25) (hkey : g.g_actualKey.length = 154) :
    (encrypt H O pfx self g fs filename).1 = true ∧
    ∃ ct : Bytes,
      (encrypt H O pfx self g fs filename).2.read filename =
        get_file_hash H fs filename ++ pfx ++ ct ++ get_string_hash H self.m_encryptedKey ∧
      (get_file_hash H fs filename).length = 32 ∧
      (get_string_hash H self.m_encryptedKey).length = 32 ∧
      (fs.read filename).length ≤ ceilBlocks (fs.read filename).length * 154 ∧
      ceilBlocks (fs.read filename).length * 154 < (fs.read filename).length + 154 ∧
      ct.length = ceilBlocks (fs.read filename).length * 154 ∧
      ((encrypt H O pfx self g fs filename).2.read filename).length = 57 + ct.length + 32 ∧
      ∀ j, j < ct.length →
        ∃ kb, g.g_actualKey[j % 154]? = some kb ∧
          ct.getD j 0 =
            (fs.read filename ++
              List.replicate
                (ceilBlocks (fs.read filename).length * 154 - (fs.read filename).length)
                0x1f).getD j 0 ^^^ kb := by
  refine ⟨encrypt_fst H O pfx self g fs filename hF hplain, _,
    encrypt_read H O pfx self g fs filename hF hplain, get_file_hash_length _ _ _,
    get_string_hash_length _ _, ceilBlocks_ge _, ceilBlocks_lt _, encrypt_blocks_length _ _ _ _,
    ?_, ?_⟩
  · rw [encrypt_read H O pfx self g fs filename hF hplain]
    simp only [List.length_append, get_file_hash_length, get_string_hash_length, hpfx]
  · intro j hj
    rw [encrypt_blocks_length] at hj
    have hlt : j % 154 < g.g_actualKey.length := by
      rw [hkey]
      exact Nat.mod_lt _ (by decide)
    refine ⟨g.g_actualKey[j % 154], List.getElem?_eq_getElem hlt, ?_⟩
    rw [encrypt_blocks_getD _ _ _ _ _ hj, Nat.zero_add]
    simp only [g_actualKlen, padByte, List.getD_eq_getElem?_getD, List.getElem?_eq_getElem hlt,
      Option.getD_some]

/-- C7 on a two-byte file under the key of `sampleEntropy`. -/
theorem encrypt_layout_witness :
    (encrypt sampleHash sampleOracle samplePfx (construct [] Globals.init sampleEntropy).1
        (construct [] Globals.init sampleEntropy).2 sampleFS "f").1 = true ∧
    ∃ ct : Bytes,
      (encrypt sampleHash sampleOracle samplePfx (construct [] Globals.init sampleEntropy).1
          (construct [] Globals.init sampleEntropy).2 sampleFS "f").2.read "f" =
        get_file_hash sampleHash sampleFS "f" ++ samplePfx ++ ct ++
          get_string_hash sampleHash (construct [] Globals.init sampleEntropy).1.m_encryptedKey ∧
      ct.length = 154 :=
  ⟨(encrypt_layout sampleHash sampleOracle samplePfx _ _ sampleFS "f"
      (by decide) (by decide) (by decide) (by decide)).1,
   (encrypt_layout sampleHash sampleOracle samplePfx _ _ sampleFS "f"
      (by decide) (by decide) (by decide) (by decide)).2.imp
      (fun _ h => ⟨h.1, h.2.2.2.2.2.1⟩)⟩

/-- C8: for a file of any size `S`, `add_padding` appends exactly
`ceil(S/154)*154 − S` bytes `0x1F` (the block count `c` it uses is the ceiling:
`S ≤ c*154 < S + 154`); the padded length is a multiple of 154, fewer than 154
bytes are added, none when `S` is a multiple of 154, and the container `encrypt`
then writes has a length `L` with `(L − 89) mod 154 = 0`. -/
theorem add_padding_aligned (fs : FS) (filename : Path) :
    (add_padding fs filename (fs.read filename).length).read filename =
        fs.read filename ++
          List.replicate (ceilBlocks (fs.read filename).length * 154 - (fs.read filename).length) 0x1f ∧
      (fs.read filename).length ≤ ceilBlocks (fs.read filename).length * 154 ∧
      ceilBlocks (fs.read filename).length * 154 < (fs.read filename).length + 154 ∧
      ((add_padding fs filename (fs.read filename).length).read filename).length % 154 = 0 ∧
      ((add_padding fs filename (fs.read filename).length).read filename).length -
        (fs.read filename).length < 154 ∧
      ((fs.read filename).length % 154 = 0 →
        (add_padding fs filename (fs.read filename).length).read filename = fs.read filename) ∧
      ∀ (H : HashProvider) (O : StatusOracle) (pfx : Bytes) (self : Krenq) (g : Globals),
        pfx.length = 25 → (encrypt H O pfx self g fs filename).1 = true →
        (((encrypt H O pfx self g fs filename).2.read filename).length - 89) % 154 = 0 := by
  have hge := ceilBlocks_ge (fs.read filename).length
  have hlt := ceilBlocks_lt (fs.read filename).length
  simp only [g_actualKlen] at hge hlt
  have hlen : ((add_padding fs filename (fs.read filename).length).read filename).length =
      ceilBlocks (fs.read filename).length * 154 := by
    rw [add_padding_read]
    simp only [List.length_append, List.length_replicate, g_actualKlen]
    omega
  refine ⟨add_padding_read _ _ _, hge, hlt, ?_, ?_, ?_, ?_⟩
  · rw [hlen]; simp
  · rw [hlen]; omega
  · intro h
    rw [add_padding_read, ceilBlocks_of_dvd _ h]
    simp
  · intro H O pfx self g hpfx henc
    rw [encrypt_container_length H O pfx self g fs filename hpfx henc]
    simp [g_actualKlen]

/-- C8 at a two-byte file: 152 bytes are appended and the container has 243 bytes. -/
theorem add_padding_aligned_witness :
    (add_padding sampleFS "f" 2).read "f" = [72, 105] ++ List.replicate 152 0x1f ∧
      (((encrypt sampleHash sampleOracle samplePfx (construct [] Globals.init sampleEntropy).1
        (construct [] Globals.init sampleEntropy).2 sampleFS "f").2.read "f").length - 89) % 154 = 0 :=
  ⟨(add_padding_aligned sampleFS "f").1,
   (add_padding_aligned sampleFS "f").2.2.2.2.2.2 sampleHash sampleOracle samplePfx _ _
     (by decide) (by decide)⟩

/-- C9: on a 154-byte block `b` and a 154-byte key text `k` the byte transform
is its own inverse, `xor(xor(b, k), k) = b`, and the transform `decrypt` applies
to a block is the one `encrypt` applies. -/
theorem xor_block_involution (b k : Bytes) (hb : b.length = 154) (_hk : k.length = 154) :
    encrypt_block (encrypt_block b k) k = b ∧ decrypt_block (encrypt_block b k) k = b ∧
      decrypt_block b k = encrypt_block b k ∧
      ∀ i, i < 154 → (encrypt_block b k).getD i 0 = b.getD i 0 ^^^ k.getD i 0 := by
  refine ⟨encrypt_block_twice b k hb, ?_, ?_, ?_⟩
  · rw [decrypt_block_eq]; exact encrypt_block_twice b k hb
  · rw [decrypt_block_eq]
  · intro i hi
    exact encrypt_block_getD b k i hi

/-- C9 on the block of 154 letters A under the key of 154 sevens. -/
theorem xor_block_involution_witness :
    encrypt_block (encrypt_block (List.replicate 154 65) (List.replicate 154 7))
        (List.replicate 154 7) = List.replicate 154 65 ∧
      decrypt_block (encrypt_block (List.replicate 154 65) (List.replicate 154 7))
        (List.replicate 154 7) = List.replicate 154 65 :=
  ⟨(xor_block_involution (List.replicate 154 65) (List.replicate 154 7)
      (by simp) (by simp)).1,
   (xor_block_involution (List.replicate 154 65) (List.replicate 154 7)
      (by simp) (by simp)).2.1⟩

/-- C10: on a file of at least 154 bytes `remove_padding` cuts exactly `k`
bytes off the end and keeps every earlier byte, where `k`, between 0 and 154,
is the number of consecutive bytes `0x1F` ending the last 154 bytes of the
file: those `k` bytes are `0x1F`, and the byte before them in that window, if
there is one, is not. -/
theorem remove_padding_truncates (O : StatusOracle) (fs : FS) (filename : Path)
    (h1 : 154 ≤ (fs.read filename).length) (h2 : (fs.read filename).length < sizeMax) :
    ∃ k, k ≤ 154 ∧
      fs.read filename = (remove_padding O fs filename).read filename ++ List.replicate k 0x1f ∧
      ((remove_padding O fs filename).read filename).length + k = (fs.read filename).length ∧
      (fs.read filename).drop ((fs.read filename).length - 154) =
        ((fs.read filename).drop ((fs.read filename).length - 154)).take (154 - k) ++
          List.replicate k 0x1f ∧
      (((fs.read filename).drop ((fs.read filename).length - 154)).take (154 - k)).getLast? ≠
        some 0x1f := by
  have hrp := remove_padding_read O fs filename h1 h2
  simp only [g_actualKlen] at hrp
  set d := fs.read filename with hd
  set w := d.drop (d.length - 154) with hw
  have hwl : w.length = 154 := by simp [hw]; omega
  obtain ⟨hs1, hs2⟩ := count_padding_reverse w
  have hle := count_padding_le w.reverse
  rw [List.length_reverse, hwl] at hle
  rw [hwl] at hs1 hs2
  set k := count_padding w.reverse with hk
  have hdrop : d.drop (d.length - k) = List.replicate k padByte := by
    have e1 : d.drop (d.length - k) = w.drop (154 - k) := by
      have e0 : d.length - 154 + (154 - k) = d.length - k := by omega
      rw [hw, List.drop_drop, e0]
    rw [e1]
    conv_lhs => rw [hs1]
    rw [List.drop_left']
    simp [hwl]
  refine ⟨k, hle, ?_, ?_, hs1, hs2⟩
  · rw [hrp]
    conv_lhs => rw [← List.take_append_drop (d.length - k) d]
    rw [hdrop]
    rfl
  · rw [hrp]
    simp
    omega

/-- C10 on a file of 150 letters A followed by 10 bytes `0x1F`: the 10 bytes go. -/
theorem remove_padding_truncates_witness :
    ∃ k, k ≤ 154 ∧
      (FS.write (fun _ => none) "f" (List.replicate 150 65 ++ List.replicate 10 0x1f)).read "f" =
        (remove_padding sampleOracle
          (FS.write (fun _ => none) "f" (List.replicate 150 65 ++ List.replicate 10 0x1f))
          "f").read "f" ++ List.replicate k 0x1f :=
  (remove_padding_truncates sampleOracle
    (FS.write (fun _ => none) "f" (List.replicate 150 65 ++ List.replicate 10 0x1f)) "f"
    (by simp [read_write_same]) (by simp [read_write_same, sizeMax])).imp
    (fun _ h => ⟨h.1, h.2.1⟩)

/-- Genuine sentinel bytes on the first engine of a run: for a non-empty file
`F` ending in the byte `0x1F` (not classified as
encrypted; the engine's key being the first generated in the run, with its
full key text and its raw key in a key file not read before; the container
being recognised by the status check), `encrypt` followed by
`decrypt` returns true and leaves a strict prefix of `F`: `F` is what is left
followed by `t ≥ 1` bytes `0x1F`, and these are all the trailing `0x1F` bytes of
`F` that lie in the last 154-byte window of the padded content (what is left
does not end in `0x1F` unless the whole window was stripped). -/
theorem roundtrip_strips_genuine_sentinels (H : HashProvider) (O : StatusOracle) (pfx : Bytes)
    (entries : List Path) (g0 : Globals) (e : Entropy) (fs : FS) (filename keyname : Path)
    (h0 : g0.g_actualKey = []) (hnone : g0.g_kmap keyname = none)
    (hF : fs.read filename ≠ [])
    (hlast : (fs.read filename).getLast? = some 0x1f)
    (hplain : (krenq_status O fs filename).isEncrypted = false)
    (hpfx : pfx.length = 25)
    (_hkeytext : (construct entries g0 e).2.g_actualKey.length = 154)
    (hkeyfile : fs.read keyname = (construct entries g0 e).1.m_encryptedKey)
    (hne1 : keyname ≠ filename) (hne2 : keyname ≠ filename ++ ".krenqenctemp")
    (hmark : O.marker ((encrypt H O pfx (construct entries g0 e).1
      (construct entries g0 e).2 fs filename).2.read filename) = true)
    (hsz : (fs.read filename).length + 243 ≤ sizeMax) :
    ∃ (content : Bytes) (t : Nat),
      roundtrip H O pfx (construct entries g0 e).1 (construct entries g0 e).2
        fs filename keyname = some (true, content) ∧
      1 ≤ t ∧ fs.read filename = content ++ List.replicate t 0x1f ∧
      content.length < (fs.read filename).length ∧
      t + (ceilBlocks (fs.read filename).length * 154 - (fs.read filename).length) ≤ 154 ∧
      (t + (ceilBlocks (fs.read filename).length * 154 - (fs.read filename).length) < 154 →
        content.getLast? ≠ some 0x1f) := by
  have hrt := roundtrip_eq H O pfx entries g0 e fs filename keyname h0 hnone hF hplain hpfx hkeyfile hne1 hne2
    hmark hsz
  have hge := ceilBlocks_ge (fs.read filename).length
  have hlt := ceilBlocks_lt (fs.read filename).length
  have hpos := ceilBlocks_pos (fs.read filename).length (by simpa using hF)
  have h154 : g_actualKlen ≤ ceilBlocks (fs.read filename).length * g_actualKlen :=
    Nat.le_mul_of_pos_left _ hpos
  set F := fs.read filename with hFdef
  set padn := ceilBlocks F.length * g_actualKlen - F.length with hpadn
  have hP : (F ++ List.replicate padn padByte).length = ceilBlocks F.length * g_actualKlen := by
    simp only [List.length_append, List.length_replicate]
    omega
  obtain ⟨hk1, hk2, hk3⟩ := count_padding_tail (F ++ List.replicate padn padByte)
    (by rw [hP]; exact h154)
  have hk4 := count_padding_exceeds F padn hF hlast (by omega) (by omega)
  set k := count_padding ((F ++ List.replicate padn padByte).drop
    ((F ++ List.replicate padn padByte).length - g_actualKlen)).reverse with hk
  set X := (F ++ List.replicate padn padByte).take
    ((F ++ List.replicate padn padByte).length - k) with hX
  have hsplit : List.replicate k padByte =
      List.replicate (k - padn) padByte ++ List.replicate padn padByte := by
    rw [← List.replicate_add]
    congr 1
    omega
  have hFeq : F = X ++ List.replicate (k - padn) padByte := by
    rw [hsplit, ← List.append_assoc] at hk2
    exact List.append_cancel_right hk2
  refine ⟨X, k - padn, hrt, by omega, hFeq, ?_, ?_, ?_⟩
  · have := congrArg List.length hFeq
    simp only [List.length_append, List.length_replicate] at this
    omega
  · simp only [g_actualKlen] at *
    omega
  · intro h
    apply hk3
    simp only [g_actualKlen] at *
    omega

/-- Genuine sentinel bytes on the file `[0x48, 0x1F, 0x1F]`: the byte `0x48` is
left. -/
theorem roundtrip_strips_genuine_sentinels_witness :
    ∃ (content : Bytes) (t : Nat),
      roundtrip sampleHash sampleOracle samplePfx (construct [] Globals.init sampleEntropy).1
        (construct [] Globals.init sampleEntropy).2 (sampleDisk [72, 0x1f, 0x1f]) "f" "k.krenq" =
        some (true, content) ∧
      1 ≤ t ∧ (sampleDisk [72, 0x1f, 0x1f]).read "f" = content ++ List.replicate t 0x1f :=
  (roundtrip_strips_genuine_sentinels sampleHash sampleOracle samplePfx [] Globals.init
    sampleEntropy (sampleDisk [72, 0x1f, 0x1f]) "f" "k.krenq" rfl rfl
    (by decide) (by decide) (by decide) (by decide)
    (by decide) (by decide) (by decide) (by decide) (by decide) (by decide)).imp
    (fun _ h => h.imp (fun _ h2 => ⟨h2.1, h2.2.1, h2.2.2.1⟩))

/-- C11 on the code, on the second engine built in a run, with the two-byte file
`[0x48, 0x1F]` and the engine's own key saved under `k2.krenq`: `encrypt`
followed by `decrypt` with that key file returns true and leaves 140 bytes
starting with `[75, 29]`, which is no initial segment of the file (its first
byte is `0x48`, and two bytes is all it has).  `encrypt` XORs with the first
154 bytes of `g_actualKey`, the key text of the first engine, `decrypt` with
the text of the key file. -/
theorem later_engine_leaves_other_bytes :
    (laterDisk [72, 0x1f]).read "f" = [72, 0x1f] ∧
      (laterDisk [72, 0x1f]).read "k2.krenq" = laterEngine.m_encryptedKey ∧
      laterGlobals.g_actualKey.take 154 = sampleGlobals.g_actualKey ∧
      (extracted_text laterEngine laterGlobals (laterDisk [72, 0x1f]) "k2.krenq").map
          (fun t => (t.length, decide (t = sampleGlobals.g_actualKey))) = some (154, false) ∧
      (roundtrip sampleHash sampleOracle samplePfx laterEngine laterGlobals (laterDisk [72, 0x1f])
          "f" "k2.krenq").map (fun r => (r.1, r.2.take 2, r.2.length)) =
        some (true, [75, 29], 140) := by
  decide

/-- C12, as amended: whenever `extract_key` returns normally and the file is
not classified as encrypted, or the digest of the cached raw key bytes differs
from the footer digest of the file, `decrypt` returns false and leaves the
files and the path-to-key association map `m_emap` as they were. -/
theorem decrypt_skips (H : HashProvider) (O : StatusOracle) (self : Krenq) (g : Globals)
    (fs : FS) (filename keyname : Path) (self1 : Krenq) (g1 : Globals)
    (hex : extract_key self g fs keyname = .ok (self1, g1))
    (h : (krenq_status O fs filename).isEncrypted = false ∨
      get_string_hash H (self1.m_kenmap.index keyname []).1 ≠
        (krenq_status O fs filename).footerDigest) :
    ∃ self2, decrypt H O self g fs filename keyname = .ok (false, self2, g1, fs) ∧
      self2.m_emap = self.m_emap := by
  obtain ⟨hc, hem⟩ := extract_key_contains self g fs keyname self1 g1 hex
  by_cases henc : (krenq_status O fs filename).isEncrypted = true
  · have hd : get_string_hash H (self1.m_kenmap.index keyname []).1 ≠
        (krenq_status O fs filename).footerDigest := by
      rcases h with h | h
      · rw [henc] at h; cases h
      · exact h
    refine ⟨{ self1 with m_kenmap := (self1.m_kenmap.index keyname []).2 }, ?_, hem⟩
    simp only [decrypt, hex, hc, henc, Bool.not_true, Bool.false_eq_true, ↓reduceIte, ne_eq, hd,
      not_false_eq_true]
  · refine ⟨self1, ?_, hem⟩
    simp only [decrypt, hex, hc, henc, Bool.not_true, Bool.false_eq_true, ↓reduceIte,
      Bool.not_false]

/-- C12 amended, on a file that is not a container, with the engine's key file. -/
theorem decrypt_skips_witness :
    ∃ self2, decrypt sampleHash sampleOracle (construct [] Globals.init sampleEntropy).1
        (construct [] Globals.init sampleEntropy).2 (sampleDisk [72, 105]) "f" "k.krenq" =
        .ok (false, self2,
          { (construct [] Globals.init sampleEntropy).2 with
            g_kmap := (construct [] Globals.init sampleEntropy).2.g_kmap.insert "k.krenq"
              (self_pad (Key.ofRaw ((sampleDisk [72, 105]).read "k.krenq")).text) },
          sampleDisk [72, 105]) ∧
      self2.m_emap = (construct [] Globals.init sampleEntropy).1.m_emap :=
  decrypt_skips sampleHash sampleOracle (construct [] Globals.init sampleEntropy).1
    (construct [] Globals.init sampleEntropy).2 (sampleDisk [72, 105]) "f" "k.krenq" _ _
    (extract_key_fresh _ _ _ "k.krenq" rfl (by decide)) (Or.inl (by decide))

/-- C12 as stated fails: on a file that is not classified as encrypted and a
key file of three bytes, `decrypt` raises `InvalidKey` instead of returning
false. -/
theorem decrypt_raises_before_status_check :
    (krenq_status sampleOracle badKeyDisk "f").isEncrypted = false ∧
      raised (decrypt sampleHash sampleOracle (construct [] Globals.init sampleEntropy).1
        (construct [] Globals.init sampleEntropy).2 badKeyDisk "f" "bad.krenq") =
        some Error.InvalidKey := by
  decide

/-- C13: `encrypt` returns false and leaves the files as they are whenever the
status check classifies the file as encrypted or reports the size 0; in
particular, on a path still classified as encrypted after a first `encrypt`, a
second `encrypt` (of any engine, with any metadata block) returns false and
changes nothing. -/
theorem encrypt_skips (H : HashProvider) (O : StatusOracle) (pfx : Bytes) (self : Krenq)
    (g : Globals) (fs : FS) (filename : Path) :
    ((krenq_status O fs filename).isEncrypted = true ∨ (krenq_status O fs filename).size = 0 →
      encrypt H O pfx self g fs filename = (false, fs)) ∧
    ∀ (pfx2 : Bytes) (self2 : Krenq) (g2 : Globals),
      (krenq_status O (encrypt H O pfx self g fs filename).2 filename).isEncrypted = true →
      encrypt H O pfx2 self2 g2 (encrypt H O pfx self g fs filename).2 filename =
        (false, (encrypt H O pfx self g fs filename).2) := by
  have key : ∀ (pfx : Bytes) (self : Krenq) (g : Globals) (fs : FS),
      ((krenq_status O fs filename).isEncrypted = true ∨ (krenq_status O fs filename).size = 0) →
      encrypt H O pfx self g fs filename = (false, fs) := by
    intro pfx self g fs h
    rcases h with h | h
    · simp [encrypt, h]
    · simp only [encrypt, h, ↓reduceIte, ite_self]
  exact ⟨key pfx self g fs, fun pfx2 self2 g2 h => key pfx2 self2 g2 _ (Or.inl h)⟩

/-- C13 on the empty file, and on the two-byte file "Hi" encrypted twice. -/
theorem encrypt_skips_witness :
    encrypt sampleHash sampleOracle samplePfx (construct [] Globals.init sampleEntropy).1
        (construct [] Globals.init sampleEntropy).2 (sampleDisk []) "f" = (false, sampleDisk []) ∧
      (encrypt sampleHash sampleOracle samplePfx (construct [] Globals.init sampleEntropy).1
        (construct [] Globals.init sampleEntropy).2 (sampleDisk [72, 105]) "f").1 = true ∧
      encrypt sampleHash sampleOracle samplePfx (construct [] Globals.init sampleEntropy).1
        (construct [] Globals.init sampleEntropy).2
        (encrypt sampleHash sampleOracle samplePfx (construct [] Globals.init sampleEntropy).1
          (construct [] Globals.init sampleEntropy).2 (sampleDisk [72, 105]) "f").2 "f" =
        (false, (encrypt sampleHash sampleOracle samplePfx (construct [] Globals.init sampleEntropy).1
          (construct [] Globals.init sampleEntropy).2 (sampleDisk [72, 105]) "f").2) :=
  ⟨(encrypt_skips sampleHash sampleOracle samplePfx _ _ (sampleDisk []) "f").1
      (Or.inr (by decide)),
    by decide,
    (encrypt_skips sampleHash sampleOracle samplePfx (construct [] Globals.init sampleEntropy).1
      (construct [] Globals.init sampleEntropy).2 (sampleDisk [72, 105]) "f").2 samplePfx _ _
      (by decide)⟩

/-- C14: `encrypt_all` and `encrypt_by_index` raise `KeyNotSaved` exactly
when the saved flag `m_keyIsSaved` is false, and when they raise it the files
are all left as they were. -/
theorem encrypt_requires_saved_key (H : HashProvider) (O : StatusOracle) (mk : Nat → Bytes)
    (self : Krenq) (g : Globals) (fs : FS) (ds : Dirs) (indexes : List Int) :
    ((encrypt_all H O mk self g fs ds).1 = some Error.KeyNotSaved ↔ self.m_keyIsSaved = false) ∧
    ((encrypt_by_index H O mk self g fs ds indexes).1 = some Error.KeyNotSaved ↔
      self.m_keyIsSaved = false) ∧
    (self.m_keyIsSaved = false →
      encrypt_all H O mk self g fs ds = (some Error.KeyNotSaved, fs) ∧
      encrypt_by_index H O mk self g fs ds indexes = (some Error.KeyNotSaved, fs)) := by
  cases hs : self.m_keyIsSaved <;> simp [encrypt_all, encrypt_by_index, hs]

/-- C14 on an engine whose key is not saved, and on the same engine with the
key saved: the first raises and leaves the file `f`, the second encrypts it. -/
theorem encrypt_requires_saved_key_witness :
    encrypt_all sampleHash sampleOracle (fun _ => samplePfx) sampleEngine sampleGlobals
        (sampleDisk [72, 105]) noDirs = (some Error.KeyNotSaved, sampleDisk [72, 105]) ∧
      encrypt_by_index sampleHash sampleOracle (fun _ => samplePfx) sampleEngine sampleGlobals
        (sampleDisk [72, 105]) noDirs [1] = (some Error.KeyNotSaved, sampleDisk [72, 105]) ∧
      (encrypt_all sampleHash sampleOracle (fun _ => samplePfx) savedEngine sampleGlobals
        (sampleDisk [72, 105]) noDirs).1 = none ∧
      ((encrypt_all sampleHash sampleOracle (fun _ => samplePfx) savedEngine sampleGlobals
        (sampleDisk [72, 105]) noDirs).2.read "f").length = 243 ∧
      ((encrypt_by_index sampleHash sampleOracle (fun _ => samplePfx) savedEngine sampleGlobals
        (sampleDisk [72, 105]) noDirs [1]).2.read "f").length = 243 :=
  ⟨((encrypt_requires_saved_key sampleHash sampleOracle (fun _ => samplePfx) sampleEngine
      sampleGlobals (sampleDisk [72, 105]) noDirs [1]).2.2 (by decide)).1,
   ((encrypt_requires_saved_key sampleHash sampleOracle (fun _ => samplePfx) sampleEngine
      sampleGlobals (sampleDisk [72, 105]) noDirs [1]).2.2 (by decide)).2,
   by decide, by decide, by decide⟩

/-- C15: after a `save_key` that returned normally, every further `save_key`
call, with any name (and whatever directories exist by then), returns without
raising and changes nothing: the engine, with its recorded key file name and
its saved flag (which is set), and all files are as the first call left them. -/
theorem save_key_twice (self : Krenq) (fs : FS) (ds ds2 : Dirs) (name1 name2 : Path)
    (h : (save_key self fs ds name1).1 = none) :
    (save_key self fs ds name1).2.1.m_keyIsSaved = true ∧
      save_key (save_key self fs ds name1).2.1 (save_key self fs ds name1).2.2 ds2 name2 =
        (none, (save_key self fs ds name1).2.1, (save_key self fs ds name1).2.2) := by
  have hs : (save_key self fs ds name1).2.1.m_keyIsSaved = true := by
    by_cases h1 : self.m_keyIsSaved = true
    · rw [save_key_saved _ _ _ _ h1]; exact h1
    · have h1f : self.m_keyIsSaved = false := by simpa using h1
      by_cases hex : fs_exists fs ds (main_key name1) = true
      · rw [save_key_exists _ _ _ _ h1f hex] at h
        cases h
      · have hexf : fs_exists fs ds (main_key name1) = false := by simpa using hex
        rw [save_key_free _ _ _ _ h1f hexf]
  exact ⟨hs, save_key_saved _ _ _ _ hs⟩

/-- C15 on the names `abc` and `xyz`: the second call leaves the key file
`abc.krenq` and creates no `xyz.krenq`. -/
theorem save_key_twice_witness :
    (save_key sampleEngine sampleFS noDirs "abc").2.1.m_keyname = "abc.krenq" ∧
      (save_key sampleEngine sampleFS noDirs "abc").2.2 "abc.krenq" =
        some sampleEngine.m_encryptedKey ∧
      save_key (save_key sampleEngine sampleFS noDirs "abc").2.1
          (save_key sampleEngine sampleFS noDirs "abc").2.2 noDirs "xyz" =
        (none, (save_key sampleEngine sampleFS noDirs "abc").2.1,
          (save_key sampleEngine sampleFS noDirs "abc").2.2) :=
  ⟨by decide, by decide,
    (save_key_twice sampleEngine sampleFS noDirs noDirs "abc" "xyz" (by decide)).2⟩

/-- C16 on the code: for the seven-character name `mykey12` the key goes to
the path `.krenq`, not to `mykey12.krenq`; for the name `secret.krenq` the path
is empty and no file is written although the key is marked as saved; for the
name `.krenq` the path is `.krenq.krenq`.  A name of at most six characters
other than `.krenq`, such as `abc`, gets `.krenq` appended as claimed. -/
theorem save_key_path :
    main_key "mykey12" = ".krenq" ∧
      (save_key sampleEngine sampleFS noDirs "mykey12").2.2 ".krenq" =
        some sampleEngine.m_encryptedKey ∧
      (save_key sampleEngine sampleFS noDirs "mykey12").2.2 "mykey12.krenq" = none ∧
      main_key "secret.krenq" = "" ∧
      (save_key sampleEngine sampleFS noDirs "secret.krenq").2.2 "secret.krenq" = none ∧
      (save_key sampleEngine sampleFS noDirs "secret.krenq").2.1.m_keyIsSaved = true ∧
      main_key ".krenq" = ".krenq.krenq" ∧
      main_key "abc" = "abc.krenq" ∧
      (save_key sampleEngine sampleFS noDirs "abc").2.2 "abc.krenq" =
        some sampleEngine.m_encryptedKey := by
  decide

/-- C17: when something exists at the path `save_key` computes for the name,
an engine whose key is not saved raises `KeyAlreadyExists`, and the engine
(saved flag false, key name as it was) and all files are left as they were;
a later `save_key` with a name whose path is free then returns normally, sets
the saved flag and the key name, and writes the raw key to that path. -/
theorem save_key_collision (self : Krenq) (fs : FS) (ds : Dirs) (name1 name2 : Path)
    (hunsaved : self.m_keyIsSaved = false)
    (hex : fs_exists fs ds (main_key name1) = true)
    (hfree : fs_exists fs ds (main_key name2) = false) :
    save_key self fs ds name1 = (some Error.KeyAlreadyExists, self, fs) ∧
      (save_key self fs ds name1).2.1.m_keyIsSaved = false ∧
      (save_key self fs ds name1).2.1.m_keyname = self.m_keyname ∧
      (save_key self fs ds name1).2.2 = fs ∧
      (save_key (save_key self fs ds name1).2.1 (save_key self fs ds name1).2.2 ds name2).1 =
        none ∧
      (save_key (save_key self fs ds name1).2.1 (save_key self fs ds name1).2.2 ds
        name2).2.1.m_keyIsSaved = true ∧
      (save_key (save_key self fs ds name1).2.1 (save_key self fs ds name1).2.2 ds
        name2).2.1.m_keyname = main_key name2 ∧
      (main_key name2 ≠ "" →
        (save_key (save_key self fs ds name1).2.1 (save_key self fs ds name1).2.2 ds
          name2).2.2 (main_key name2) = some self.m_encryptedKey) := by
  have h1 := save_key_exists self fs ds name1 hunsaved hex
  rw [h1]
  refine ⟨rfl, hunsaved, rfl, rfl, ?_⟩
  simp only [save_key_free self fs ds name2 hunsaved hfree]
  refine ⟨trivial, trivial, trivial, ?_⟩
  intro hne
  simp [FS.create, FS.write, hne]

/-- C17 on a disk where `f.krenq` exists: saving under `f` is refused, saving
under `abc` afterwards goes through. -/
theorem save_key_collision_witness :
    save_key sampleEngine (FS.write sampleFS "f.krenq" [1]) noDirs "f" =
        (some Error.KeyAlreadyExists, sampleEngine, FS.write sampleFS "f.krenq" [1]) ∧
      (save_key sampleEngine (FS.write sampleFS "f.krenq" [1]) noDirs "f").2.1.m_keyname = "" ∧
      (save_key
        (save_key sampleEngine (FS.write sampleFS "f.krenq" [1]) noDirs "f").2.1
        (save_key sampleEngine (FS.write sampleFS "f.krenq" [1]) noDirs "f").2.2 noDirs
        "abc").1 = none :=
  ⟨(save_key_collision sampleEngine (FS.write sampleFS "f.krenq" [1]) noDirs "f" "abc"
      (by decide) (by decide) (by decide)).1,
   ((save_key_collision sampleEngine (FS.write sampleFS "f.krenq" [1]) noDirs "f" "abc"
      (by decide) (by decide) (by decide)).2.2.1).trans (by decide),
   (save_key_collision sampleEngine (FS.write sampleFS "f.krenq" [1]) noDirs "f" "abc"
      (by decide) (by decide) (by decide)).2.2.2.2.1⟩

/-- C18, as amended: for every key-file path that the key text registry
`g_kmap` does not hold yet, `extract_key`, and hence `decrypt`, raise
`InvalidKey` whenever the file at that path is not exactly 100 bytes long, 100
being the size of the packed key, 4 + 4×16 + 4×8. -/
theorem extract_key_invalid (H : HashProvider) (O : StatusOracle) (self : Krenq) (g : Globals)
    (fs : FS) (filename keyname : Path) (hnone : g.g_kmap keyname = none)
    (hlen : (fs.read keyname).length ≠ 100) :
    extract_key self g fs keyname = .error Error.InvalidKey ∧
      decrypt H O self g fs filename keyname = .error Error.InvalidKey ∧
      g_encryptedKlen = 100 ∧ g_encryptedKlen = 4 + 4 * 16 + 4 * 8 := by
  have hex : extract_key self g fs keyname = .error Error.InvalidKey := by
    have hl : (fs.read keyname).length ≠ g_encryptedKlen := hlen
    simp only [extract_key, PMap.contains, hnone, Option.isSome_none, Bool.false_eq_true,
      ↓reduceIte, hl, ne_eq, not_false_eq_true]
  refine ⟨hex, ?_, rfl, rfl⟩
  simp only [decrypt, hex]

/-- C18 amended, on a key file of three bytes. -/
theorem extract_key_invalid_witness :
    extract_key (construct [] Globals.init sampleEntropy).1
        (construct [] Globals.init sampleEntropy).2 badKeyDisk "bad.krenq" =
        .error Error.InvalidKey ∧
      decrypt sampleHash sampleOracle (construct [] Globals.init sampleEntropy).1
        (construct [] Globals.init sampleEntropy).2 badKeyDisk "f" "bad.krenq" =
        .error Error.InvalidKey :=
  ⟨(extract_key_invalid sampleHash sampleOracle _ _ badKeyDisk "f" "bad.krenq" rfl
      (by decide)).1,
   (extract_key_invalid sampleHash sampleOracle _ _ badKeyDisk "f" "bad.krenq" rfl
      (by decide)).2.1⟩

/-- C18 as stated fails: once the registry holds the path `k.krenq` (here
after `extract_key` read the 100-byte key file), `extract_key` and `decrypt`
return normally although the file at that path now has three bytes. -/
theorem extract_key_cached_skips_size_check :
    cachedGlobals.g_kmap.contains "k.krenq" = true ∧
      (replacedKeyDisk.read "k.krenq").length = 3 ∧
      raised (extract_key (construct [] Globals.init sampleEntropy).1 cachedGlobals
        replacedKeyDisk "k.krenq") = none ∧
      raised (decrypt sampleHash sampleOracle (construct [] Globals.init sampleEntropy).1
        cachedGlobals replacedKeyDisk "f" "k.krenq") = none := by
  decide

/-- C20, as amended: for a path with a recorded decrypt under the key file `k`
(the association map gives `k` for the path, the registry holds a text and the
engine the cached raw bytes for `k`) whose file is non-empty and not classified
as encrypted, the text cached for `k` having at least 154 bytes,
`re_encrypt` returns true and leaves the file holding the header
digest, the metadata block, the padded content XORed block by block with the
registry's text for `k`, whatever the generated key text `g_actualKey` is, and
as footer the digest of the cached raw bytes for `k`; that is the digest
`decrypt` computes for `k`, so a following `decrypt` of the path with `k`, the
container being recognised by the status check, passes the key check and
returns true. -/
theorem re_encrypt_uses_registry (H : HashProvider) (O : StatusOracle) (pfx : Bytes)
    (self : Krenq) (g : Globals) (fs : FS) (filename k : Path) (text raw : Bytes)
    (hemap : self.m_emap filename = some k) (hkmap : g.g_kmap k = some text)
    (hken : self.m_kenmap k = some raw)
    (_htext : g_actualKlen ≤ text.length)
    (hF : fs.read filename ≠ [])
    (hplain : (krenq_status O fs filename).isEncrypted = false)
    (hpfx : pfx.length = 25)
    (hmark : O.marker ((re_encrypt H O pfx self g fs filename).2.2.2.read filename) = true) :
    (re_encrypt H O pfx self g fs filename).1 = true ∧
    (re_encrypt H O pfx self g fs filename).2.1 = self ∧
    (re_encrypt H O pfx self g fs filename).2.2.1 = g ∧
    (re_encrypt H O pfx self g fs filename).2.2.2.read filename =
      get_file_hash H fs filename ++ pfx ++
        encrypt_blocks
          (fs.read filename ++
            List.replicate (ceilBlocks (fs.read filename).length * g_actualKlen -
              (fs.read filename).length) padByte)
          text (ceilBlocks (fs.read filename).length) 0 ++
        get_string_hash H raw ∧
    (∀ other : Bytes,
      (re_encrypt H O pfx self { g with g_actualKey := other } fs filename).2.2.2 =
        (re_encrypt H O pfx self g fs filename).2.2.2) ∧
    (krenq_status O (re_encrypt H O pfx self g fs filename).2.2.2 filename).footerDigest =
      get_string_hash H (self.m_kenmap.index k []).1 ∧
    ∃ self1 g1 fs1,
      decrypt H O (re_encrypt H O pfx self g fs filename).2.1
        (re_encrypt H O pfx self g fs filename).2.2.1
        (re_encrypt H O pfx self g fs filename).2.2.2 filename k = .ok (true, self1, g1, fs1) := by
  have hrun := re_encrypt_run H O pfx self g fs filename k text raw hemap hkmap hken hF hplain
  have hread : (re_encrypt H O pfx self g fs filename).2.2.2.read filename =
      get_file_hash H fs filename ++ pfx ++
        encrypt_blocks
          (fs.read filename ++
            List.replicate (ceilBlocks (fs.read filename).length * g_actualKlen -
              (fs.read filename).length) padByte)
          text (ceilBlocks (fs.read filename).length) 0 ++
        get_string_hash H raw := by
    rw [hrun, read_rename_dst, read_write_same]
  have hfoot : (krenq_status O (re_encrypt H O pfx self g fs filename).2.2.2 filename).footerDigest =
      get_string_hash H raw := by
    simp only [krenq_status]
    rw [hread]
    exact drop_footer _ _ (get_string_hash_length _ _)
  have henc : (krenq_status O (re_encrypt H O pfx self g fs filename).2.2.2 filename).isEncrypted =
      true := by
    have hlen : ((re_encrypt H O pfx self g fs filename).2.2.2.read filename).length =
        89 + ceilBlocks (fs.read filename).length * g_actualKlen := by
      rw [hread]
      simp only [List.length_append, get_file_hash_length, get_string_hash_length, hpfx,
        encrypt_blocks_length]
      omega
    simp only [krenq_status, hmark, hlen, Bool.and_true, Bool.and_eq_true, decide_eq_true_eq]
    simp [g_actualKlen]
  refine ⟨by rw [hrun], by rw [hrun], by rw [hrun], hread, ?_, ?_, ?_⟩
  · intro other
    rw [hrun, re_encrypt_run H O pfx self { g with g_actualKey := other } fs filename k text raw
      hemap hkmap hken hF hplain]
  · rw [hfoot, index_of_some _ _ _ _ hken]
  · obtain ⟨fs1, h1⟩ := decrypt_cached H O (re_encrypt H O pfx self g fs filename).2.1
      (re_encrypt H O pfx self g fs filename).2.2.1
      (re_encrypt H O pfx self g fs filename).2.2.2 filename k text raw
      (by rw [hrun]; exact hkmap) (by rw [hrun]; exact hken) henc hfoot.symm
    exact ⟨_, _, _, h1⟩

/-- C20 amended, in a later run: an engine with its own generated key has decrypted
`f` with the key file `k.krenq` of another key; `re_encrypt` then XORs with the
text cached for `k.krenq`, which is not the engine's own key text, and the next
`decrypt` with `k.krenq` returns true. -/
theorem re_encrypt_uses_registry_witness :
    foreignRun.1 = true ∧
    foreignRun.2.2.1.g_kmap "k.krenq" =
      some (construct [] Globals.init sampleEntropy).2.g_actualKey ∧
    foreignRun.2.2.1.g_actualKey ≠ (construct [] Globals.init sampleEntropy).2.g_actualKey ∧
    (re_encrypt sampleHash sampleOracle samplePfx foreignRun.2.1 foreignRun.2.2.1 foreignRun.2.2.2
      "f").1 = true ∧
    ∃ self1 g1 fs1,
      decrypt sampleHash sampleOracle
        (re_encrypt sampleHash sampleOracle samplePfx foreignRun.2.1 foreignRun.2.2.1
          foreignRun.2.2.2 "f").2.1
        (re_encrypt sampleHash sampleOracle samplePfx foreignRun.2.1 foreignRun.2.2.1
          foreignRun.2.2.2 "f").2.2.1
        (re_encrypt sampleHash sampleOracle samplePfx foreignRun.2.1 foreignRun.2.2.1
          foreignRun.2.2.2 "f").2.2.2 "f" "k.krenq" = .ok (true, self1, g1, fs1) :=
  have h := re_encrypt_uses_registry sampleHash sampleOracle samplePfx foreignRun.2.1
    foreignRun.2.2.1 foreignRun.2.2.2 "f" "k.krenq"
    (construct [] Globals.init sampleEntropy).2.g_actualKey
    ((construct [] Globals.init sampleEntropy).1.m_encryptedKey.take 32)
    (by decide) (by decide) (by decide) (by decide) (by decide) (by decide) (by decide)
    (by decide)
  ⟨by decide, by decide, by decide, h.1, h.2.2.2.2.2.2⟩

/-- C20 as stated fails: the one-byte file `[0x1F]` is encrypted and decrypted
(`decrypt` returns true and records the path under `k.krenq`), which leaves it
empty, its byte being stripped with the padding; `re_encrypt` of the path then
returns false at its size test and writes nothing, and a following `decrypt`
with `k.krenq` returns false without reaching the key check. -/
theorem re_encrypt_skips_emptied_file :
    emptiedRun.1 = true ∧ emptiedRun.2.1.m_emap "f" = some "k.krenq" ∧
      emptiedRun.2.2.2.read "f" = [] ∧
      (re_encrypt sampleHash sampleOracle samplePfx emptiedRun.2.1 emptiedRun.2.2.1
        emptiedRun.2.2.2 "f").1 = false ∧
      (re_encrypt sampleHash sampleOracle samplePfx emptiedRun.2.1 emptiedRun.2.2.1
        emptiedRun.2.2.2 "f").2.2.2.read "f" = [] ∧
      (decrypt sampleHash sampleOracle
          (re_encrypt sampleHash sampleOracle samplePfx emptiedRun.2.1 emptiedRun.2.2.1
            emptiedRun.2.2.2 "f").2.1
          (re_encrypt sampleHash sampleOracle samplePfx emptiedRun.2.1 emptiedRun.2.2.1
            emptiedRun.2.2.2 "f").2.2.1
          (re_encrypt sampleHash sampleOracle samplePfx emptiedRun.2.1 emptiedRun.2.2.1
            emptiedRun.2.2.2 "f").2.2.2 "f" "k.krenq").toOption.map (fun r => r.1) =
        some false := by
  decide

/-- C21: `re_encrypt_by_index` on an index whose entry itself has no record in
`m_emap` changes nothing: not the engine, not the globals, not one file.  A
directory is such an entry, `decrypt` recording the file paths it is called
with, so the decrypted files inside it are not re-encrypted, while
`re_encrypt_all` re-encrypts them. -/
theorem re_encrypt_by_index_skips_unrecorded_entry (H : HashProvider) (O : StatusOracle)
    (mk : Nat → Bytes) (self : Krenq) (g : Globals) (fs : FS) (ds : Dirs) (i : Int)
    (hnot : self.m_emap.contains (self.m_entries.getD (i - 1).toNat "") = false) :
    re_encrypt_by_index H O mk self g fs ds [i] = (self, g, fs) := by
  simp only [re_encrypt_by_index]
  rcases filter_indexes_singleton self i with h | h
  · rw [h]
    simp only [List.foldl]
    rw [re_encrypt_index_entry_skip H O mk ds _ (self, g, fs, 0) hnot]
  · rw [h]
    rfl

/-- C21 on the directory `d` whose file `d/a` was encrypted and then decrypted
in the run: by index the file keeps its two plain bytes, `re_encrypt_all` turns
it into a container of 243 bytes. -/
theorem re_encrypt_by_index_skips_unrecorded_entry_witness :
    dirRun.1 = true ∧ dirRun.2.1.m_entries = ["d"] ∧ is_directory dirTree "d" = true ∧
      dirRun.2.1.m_emap "d/a" = some "k.krenq" ∧
      dirRun.2.2.2.read "d/a" = [72, 105] ∧
      re_encrypt_by_index sampleHash sampleOracle (fun _ => samplePfx) dirRun.2.1 dirRun.2.2.1
          dirRun.2.2.2 dirTree [1] = (dirRun.2.1, dirRun.2.2.1, dirRun.2.2.2) ∧
      ((re_encrypt_all sampleHash sampleOracle (fun _ => samplePfx) dirRun.2.1 dirRun.2.2.1
          dirRun.2.2.2 dirTree).2.2.read "d/a").length = 243 :=
  ⟨by decide, by decide, by decide, by decide, by decide,
    re_encrypt_by_index_skips_unrecorded_entry sampleHash sampleOracle (fun _ => samplePfx)
      dirRun.2.1 dirRun.2.2.1 dirRun.2.2.2 dirTree 1 (by decide),
    by decide⟩

/-- C22: when the text registry `g_kmap` already holds the path and the
engine's raw-bytes registry `m_kenmap` does not (the path was read by another
engine of the run), `extract_key` returns normally with the engine unchanged,
so its raw-bytes registry still lacks the path; `decrypt` with that key file
then compares the footer with the digest of the empty string and returns false
on every file whose footer is another digest, leaving the files unchanged. -/
theorem extract_key_cached_leaves_raw_registry (H : HashProvider) (O : StatusOracle)
    (self : Krenq) (g : Globals) (fs : FS) (filename keyname : Path)
    (hc : g.g_kmap.contains keyname = true) (hk : self.m_kenmap keyname = none)
    (hfoot : (krenq_status O fs filename).footerDigest ≠ get_string_hash H []) :
    extract_key self g fs keyname = .ok (self, g) ∧
      ∃ self1, decrypt H O self g fs filename keyname = .ok (false, self1, g, fs) := by
  refine ⟨extract_key_cached self g fs keyname hc, ?_⟩
  simp only [decrypt, extract_key_cached self g fs keyname hc, hc]
  by_cases hE : (krenq_status O fs filename).isEncrypted = true
  · have hidx : (self.m_kenmap.index keyname []).1 = [] := by simp [PMap.index, hk]
    simp only [hE, hidx]
    simp [Ne.symm hfoot]
  · simp [hE]

/-- C22 on `secondEngine`: the key file `k.krenq` was read by the first engine,
which encrypted `f` with that key; the second engine's raw-bytes registry is
empty before and after `extract_key`, and its `decrypt` with the genuine key
file returns false. -/
theorem extract_key_cached_leaves_raw_registry_witness :
    secondGlobals.g_kmap.contains "k.krenq" = true ∧ secondEngine.m_kenmap "k.krenq" = none ∧
      (krenq_status sampleOracle encryptedDisk "f").isEncrypted = true ∧
      extract_key secondEngine secondGlobals encryptedDisk "k.krenq" =
        .ok (secondEngine, secondGlobals) ∧
      ∃ self1, decrypt sampleHash sampleOracle secondEngine secondGlobals encryptedDisk "f"
        "k.krenq" = .ok (false, self1, secondGlobals, encryptedDisk) :=
  ⟨by decide, by decide, by decide,
    extract_key_cached_leaves_raw_registry sampleHash sampleOracle secondEngine secondGlobals
      encryptedDisk "f" "k.krenq" (by decide) (by decide) (by decide)⟩

/-- C23: `remove_entries(e)` on any entry list removes exactly one
occurrence of `e` when `e` is present: the new list is a permutation of the old
one with one `e` erased, the number of occurrences of `e` and `get_entry_size`
drop by exactly one; when `e` is absent the list is left unchanged. -/
theorem remove_entries_removes_one (self : Krenq) (e : Path) :
    (e ∈ self.m_entries →
      (remove_entries self [e]).m_entries.Perm (self.m_entries.erase e) ∧
      (remove_entries self [e]).m_entries.count e + 1 = self.m_entries.count e ∧
      get_entry_size (remove_entries self [e]) + 1 = get_entry_size self) ∧
    (e ∉ self.m_entries → remove_entries self [e] = self) := by
  constructor
  · intro h
    have hp := remove_entry_perm self.m_entries e h
    have hpos : 0 < self.m_entries.count e := List.count_pos_iff.mpr h
    have hlen : 0 < self.m_entries.length := List.length_pos_of_mem h
    refine ⟨hp, ?_, ?_⟩
    · have := hp.count_eq e
      simp only [remove_entries, List.foldl_cons, List.foldl_nil]
      rw [this, List.count_erase_self]
      omega
    · have := hp.length_eq
      simp only [get_entry_size, remove_entries, List.foldl_cons, List.foldl_nil]
      rw [this, List.length_erase_of_mem h]
      omega
  · intro h
    simp only [remove_entries, List.foldl_cons, List.foldl_nil, remove_entry_absent _ _ h]

/-- C23 on the engine tracking `f` and `g`: removing `f` leaves `g`, removing
`h` leaves both. -/
theorem remove_entries_removes_one_witness :
    (remove_entries sampleEngine ["f"]).m_entries = ["g"] ∧
      get_entry_size (remove_entries sampleEngine ["f"]) + 1 = get_entry_size sampleEngine ∧
      remove_entries sampleEngine ["h"] = sampleEngine :=
  ⟨by decide,
   ((remove_entries_removes_one sampleEngine "f").1 (by decide)).2.2,
   (remove_entries_removes_one sampleEngine "h").2 (by decide)⟩

/-- C24: for every list of indexes and every entry list of size `n`,
`filter_indexes` yields a strictly ascending list (so without duplicates) whose
members are exactly the input values lying in `1..n`; hence every index `i` the
`*_by_index` operations then use satisfies `1 ≤ i ≤ n` and `m_entries[i - 1]` is
an entry of the list. -/
theorem filter_indexes_sorted_in_range (self : Krenq) (vidx : List Int) :
    (filter_indexes self vidx).Pairwise (fun a b => a < b) ∧
      (filter_indexes self vidx).Nodup ∧
      (∀ x, x ∈ filter_indexes self vidx ↔
        x ∈ vidx ∧ 1 ≤ x ∧ x ≤ (get_entry_size self : Int)) ∧
      ∀ i, i ∈ filter_indexes self vidx →
        1 ≤ i ∧ i ≤ (get_entry_size self : Int) ∧
          ∃ entry, self.m_entries[(i - 1).toNat]? = some entry ∧
            self.m_entries.getD (i - 1).toNat "" = entry := by
  obtain ⟨h1, h2⟩ := filter_indexes_spec self vidx
  refine ⟨h1, ?_, h2, ?_⟩
  · exact h1.imp (fun h => ne_of_lt h)
  · intro i hi
    obtain ⟨_, hlo, hhi⟩ := (h2 i).mp hi
    have hlt : (i - 1).toNat < self.m_entries.length := by omega
    refine ⟨hlo, hhi, self.m_entries[(i - 1).toNat], ?_, ?_⟩
    · exact List.getElem?_eq_getElem hlt
    · rw [List.getD_eq_getElem?_getD, List.getElem?_eq_getElem hlt]
      rfl

/-- C24 on the indexes 3, 1, 3, 0, 7, -2, 2 over two entries: 1 and 2 are
kept, and index 2 addresses the entry `g`. -/
theorem filter_indexes_sorted_in_range_witness :
    filter_indexes sampleEngine [3, 1, 3, 0, 7, -2, 2] = [1, 2] ∧
      ((1 : Int) ≤ 2 ∧ (2 : Int) ≤ (get_entry_size sampleEngine : Int) ∧
        ∃ entry, sampleEngine.m_entries[((2 : Int) - 1).toNat]? = some entry ∧
          sampleEngine.m_entries.getD ((2 : Int) - 1).toNat "" = entry) :=
  ⟨by decide,
   (filter_indexes_sorted_in_range sampleEngine [3, 1, 3, 0, 7, -2, 2]).2.2.2 2 (by decide)⟩

/-- C25: for every non-empty byte sequence `F` whose last byte is not `0x1F`
and every 154-byte key text `k`: padding `F`, XORing each block with `k` (the
loop of `encrypt`), XORing each block with `k` again (the loop of `decrypt`, or
that of `encrypt` a second time) and removing the padding returns exactly `F`. -/
theorem pad_xor_xor_unpad (O : StatusOracle) (fs : FS) (filename : Path) (k : Bytes)
    (hF : fs.read filename ≠ []) (hlast : (fs.read filename).getLast? ≠ some 0x1f)
    (_hk : k.length = 154) (hsz : (fs.read filename).length + 154 ≤ sizeMax) :
    (remove_padding O
        ((add_padding fs filename (fs.read filename).length).write filename
          (decrypt_blocks
            (encrypt_blocks ((add_padding fs filename (fs.read filename).length).read filename) k
              (ceilBlocks (fs.read filename).length) 0)
            k (ceilBlocks (fs.read filename).length) 0))
        filename).read filename = fs.read filename ∧
    (remove_padding O
        ((add_padding fs filename (fs.read filename).length).write filename
          (encrypt_blocks
            (encrypt_blocks ((add_padding fs filename (fs.read filename).length).read filename) k
              (ceilBlocks (fs.read filename).length) 0)
            k (ceilBlocks (fs.read filename).length) 0))
        filename).read filename = fs.read filename := by
  have hge := ceilBlocks_ge (fs.read filename).length
  have hlt := ceilBlocks_lt (fs.read filename).length
  have hpos := ceilBlocks_pos (fs.read filename).length (by simpa using hF)
  have h154 : g_actualKlen ≤ ceilBlocks (fs.read filename).length * g_actualKlen :=
    Nat.le_mul_of_pos_left _ hpos
  have hP : (fs.read filename ++ List.replicate
      (ceilBlocks (fs.read filename).length * g_actualKlen - (fs.read filename).length) padByte).length
      = ceilBlocks (fs.read filename).length * g_actualKlen := by
    simp only [List.length_append, List.length_replicate]
    omega
  have key : (remove_padding O
        ((add_padding fs filename (fs.read filename).length).write filename
          (decrypt_blocks
            (encrypt_blocks ((add_padding fs filename (fs.read filename).length).read filename) k
              (ceilBlocks (fs.read filename).length) 0)
            k (ceilBlocks (fs.read filename).length) 0))
        filename).read filename = fs.read filename := by
    rw [add_padding_read, decrypt_encrypt_blocks _ _ _ hP]
    rw [remove_padding_read O _ filename (by rw [read_write_same, hP]; exact h154) (by
        rw [read_write_same, hP]
        simp only [g_actualKlen, sizeMax] at *
        omega)]
    rw [read_write_same]
    exact unpad_pad _ _ hF hlast (by omega) (by omega)
  refine ⟨key, ?_⟩
  rw [← decrypt_blocks_eq (encrypt_blocks _ k _ 0) k _ 0]
  exact key

/-- C25 on the two bytes "Hi" under the key of 154 sevens. -/
theorem pad_xor_xor_unpad_witness :
    (remove_padding sampleOracle
        ((add_padding sampleFS "f" (sampleFS.read "f").length).write "f"
          (decrypt_blocks
            (encrypt_blocks ((add_padding sampleFS "f" (sampleFS.read "f").length).read "f")
              (List.replicate 154 7) (ceilBlocks (sampleFS.read "f").length) 0)
            (List.replicate 154 7) (ceilBlocks (sampleFS.read "f").length) 0))
        "f").read "f" = sampleFS.read "f" :=
  (pad_xor_xor_unpad sampleOracle sampleFS "f" (List.replicate 154 7) (by decide) (by decide)
    (by decide) (by decide)).1

/-- C26: for a 100-byte key file read for the first time, whose key has the
natural text `t` (decimal id, segments and decimal integers concatenated) of
length `n`, the text `extract_key` stores is `t` followed by its own first
`min(154 − n, n)` bytes when `n ≤ 154` and by a second copy of `t` when
`n > 154`; it starts with `t`, and its length is 154 exactly when
`77 ≤ n ≤ 154`.  (`n` is below the largest size of a string.) -/
theorem extracted_text_shape (self : Krenq) (g : Globals) (fs : FS) (keyname : Path)
    (hnone : g.g_kmap keyname = none) (hlen : (fs.read keyname).length = 100)
    (hn : (Key.ofRaw (fs.read keyname)).text.length < 2 ^ 63) :
    ∃ canon, extracted_text self g fs keyname = some canon ∧
      ((Key.ofRaw (fs.read keyname)).text.length ≤ 154 →
        canon = (Key.ofRaw (fs.read keyname)).text ++
          (Key.ofRaw (fs.read keyname)).text.take
            (min (154 - (Key.ofRaw (fs.read keyname)).text.length)
              (Key.ofRaw (fs.read keyname)).text.length)) ∧
      (154 < (Key.ofRaw (fs.read keyname)).text.length →
        canon = (Key.ofRaw (fs.read keyname)).text ++ (Key.ofRaw (fs.read keyname)).text) ∧
      canon.take (Key.ofRaw (fs.read keyname)).text.length = (Key.ofRaw (fs.read keyname)).text ∧
      (canon.length = 154 ↔
        77 ≤ (Key.ofRaw (fs.read keyname)).text.length ∧
          (Key.ofRaw (fs.read keyname)).text.length ≤ 154) := by
  refine ⟨self_pad (Key.ofRaw (fs.read keyname)).text, ?_, self_pad_spec _ hn⟩
  simp only [extracted_text, extract_key_fresh self g fs keyname hnone hlen]
  simp [PMap.insert]

/-- C26 on the key of `sampleEntropy` (natural text of 106 bytes, stored text
of 154) and on the key file `longTextKey` (natural text of more than 154
bytes, stored twice). -/
theorem extracted_text_shape_witness :
    (∃ canon, extracted_text sampleEngine sampleGlobals (sampleDisk [72, 105]) "k.krenq" =
        some canon ∧ canon.length = 154) ∧
    (∃ canon, extracted_text sampleEngine sampleGlobals
        (FS.write (fun _ => none) "long.krenq" longTextKey) "long.krenq" = some canon ∧
      canon = (Key.ofRaw longTextKey).text ++ (Key.ofRaw longTextKey).text) :=
  ⟨(extracted_text_shape sampleEngine sampleGlobals (sampleDisk [72, 105]) "k.krenq" rfl
      (by decide) (by decide)).imp (fun _ h => ⟨h.1, h.2.2.2.2.mpr (by decide)⟩),
   (extracted_text_shape sampleEngine sampleGlobals
      (FS.write (fun _ => none) "long.krenq" longTextKey) "long.krenq" rfl
      (by decide) (by decide)).imp (fun _ h => ⟨h.1, h.2.2.1 (by decide)⟩)⟩

end Krenq
